import Mathlib

/-!
Shallow embedding of the export-map resolver of `package-exports`
(`src/lib/index.js`) and proofs about the claims of its specification.

Modelling conventions, used throughout:

* JS strings are Lean `String`s; the JS string operations used by the source
  (`startsWith`, `endsWith`, `indexOf`, `slice`, `split`, `join`, `includes`)
  are modelled over the codepoint list `String.toList`, which coincides with
  JS UTF-16 semantics on the inputs involved here.
* External collaborators (the `minimatch` glob matcher, the WHATWG `URL`
  resolver against the fixed package URL, and the filesystem probe
  `fs.access`) are inputs, collected in the `Env` structure.  Likewise the
  packed-file enumeration (`npm-packlist`) is an input list of relative
  paths.  `estree-util-is-identifier-name` and `Intl.ListFormat` are external
  dependencies modelled for the ASCII fragment actually exercised.
* Diagnostics are recorded as `(ruleId, reason, jsonPath)` triples; turning a
  JSON path into a line/column span (`jsonc-parser`, `vfile-location`) and
  the final position-sort of messages (`vfile-sort`) are external and not
  modelled — all properties below are about counts and membership of
  messages, never their order.
* The `async`/`await` fan-out of the source only delays the
  `exports-path-not-found` messages of `checkExists`; entries, negations and
  all other messages are pushed synchronously in depth-first order.  The
  model emits the `checkExists` message inline, which permutes the message
  sequence but preserves the message multiset.
* The recursive walk is written in open-recursion style: each helper takes
  the recursive entry point `recur` as a parameter, and `resolveExports`
  ties the knot with a fuel argument.  Fuel `sizeOf v + 1` dominates the
  depth of `v`, so the fuel-exhausted branch is unreachable in
  `packageExportsState`; invariants are proved for every fuel.
-/

set_option linter.unusedVariables false
set_option linter.unreachableTactic false
set_option linter.unusedTactic false

namespace PackageExports

/-- A segment of a JSON path (`Array<number | string>` in the source): an
array index or an object key. -/
inductive Seg where
  | idx (n : Nat)
  | key (s : String)
deriving DecidableEq, Repr

/-- Parsed JSON values, the shape of `packageData.exports` after
`JSON.parse`. -/
inductive Json where
  | str (s : String)
  | num (n : Int)
  | bool (b : Bool)
  | null
  | arr (items : List Json)
  | obj (fields : List (String × Json))

mutual

/-- An executable size bound for a JSON value, used as fuel for the walk;
it strictly dominates the nesting depth. -/
def Json.fuel : Json → Nat
  | .str _ => 1
  | .num _ => 1
  | .bool _ => 1
  | .null => 1
  | .arr items => Json.fuelList items + 1
  | .obj fields => Json.fuelFields fields + 1

/-- Size bound of a list of JSON values. -/
def Json.fuelList : List Json → Nat
  | [] => 0
  | v :: rest => Json.fuel v + Json.fuelList rest

/-- Size bound of a list of JSON object fields. -/
def Json.fuelFields : List (String × Json) → Nat
  | [] => 0
  | (_, v) :: rest => Json.fuel v + Json.fuelFields rest

end

/-- Models JS `String.prototype.startsWith`. -/
def strStartsWith (s p : String) : Bool :=
  p.toList.isPrefixOf s.toList

/-- Models JS `String.prototype.endsWith`. -/
def strEndsWith (s p : String) : Bool :=
  p.toList.isSuffixOf s.toList

/-- Models JS `indexOf` for a one-character needle (`-1` becomes `none`). -/
def strIndexOfChar (s : String) (c : Char) : Option Nat :=
  s.toList.findIdx? (· = c)

/-- Models JS `includes` for a one-character needle. -/
def strContainsChar (s : String) (c : Char) : Bool :=
  s.toList.contains c

/-- Models JS `slice(0, i)`. -/
def strTake (s : String) (i : Nat) : String :=
  (s.toList.take i).asString

/-- Models JS `slice(i)`. -/
def strDrop (s : String) (i : Nat) : String :=
  (s.toList.drop i).asString

/-- Splits a character list at every occurrence of the separator character,
keeping empty pieces; the result is always nonempty. -/
def splitChars (sep : Char) : List Char → List (List Char)
  | [] => [[]]
  | c :: rest =>
    let r := splitChars sep rest
    if c = sep then [] :: r else
      match r with
      | [] => [[c]]
      | h :: t => (c :: h) :: t

/-- Models JS `split(sep)` for a one-character separator. -/
def jsSplitChar (sep : Char) (s : String) : List String :=
  (splitChars sep s.toList).map List.asString

/-- Models JS `Array.prototype.join(sep)` on an array of strings. -/
def joinSep (sep : String) : List String → String
  | [] => ""
  | [x] => x
  | x :: y :: rest => x ++ sep ++ joinSep sep (y :: rest)

/-- Models JS `replace(pat, rep)` for one-character pattern and replacement
(which replaces only the first occurrence). -/
def replaceFirstCharAux (pat rep : Char) : List Char → List Char
  | [] => []
  | c :: rest => if c = pat then rep :: rest else c :: replaceFirstCharAux pat rep rest

/-- Models JS `replace(pat, rep)` on a string, first occurrence only. -/
def replaceFirstChar (pat rep : Char) (s : String) : String :=
  (replaceFirstCharAux pat rep s.toList).asString

/-- Models the external `estree-util-is-identifier-name` check for the ASCII
fragment (start: letter, `_` or `$`; continue: additionally digits). -/
def isIdStart (c : Char) : Bool :=
  (c.isAlpha && c.toNat < 128) || c = '_' || c = '$'

/-- Continuation character of an ASCII identifier. -/
def isIdCont (c : Char) : Bool :=
  isIdStart c || c.isDigit

/-- Models `isIdentifierName` from `estree-util-is-identifier-name` (external
dependency), restricted to ASCII identifiers. -/
def isIdentifierName (s : String) : Bool :=
  match s.toList with
  | [] => false
  | c :: rest => isIdStart c && rest.all isIdCont

/-- The single-quote character, written by code to avoid a bare apostrophe. -/
def quoteChar : Char := Char.ofNat 39

/-- Models `segment.replaceAll(/[\x27\\]/g, \x27\\$0\x27)`: escape quotes and
backslashes. -/
def escapeQuoteBackslash : List Char → List Char
  | [] => []
  | c :: rest =>
    if c = quoteChar || c = '\\' then '\\' :: c :: escapeQuoteBackslash rest
    else c :: escapeQuoteBackslash rest

/-- Models `displayPath` (source lines 1230-1245): render a JSON path the way
the diagnostics display it. -/
def displayPath (segments : List Seg) : String :=
  segments.foldl
    (fun value segment =>
      value ++
        match segment with
        | .idx n => "[" ++ toString n ++ "]"
        | .key s =>
          if isIdentifierName s then (if value ≠ "" then "." else "") ++ s
          else "[\x27" ++ (escapeQuoteBackslash s.toList).asString ++ "\x27]")
    ""

/-- Models `new Intl.ListFormat(\x27en\x27).format` (external), conjunction
style: `a`, `a and b`, `a, b, and c`, ... -/
def listFormatEn : List String → String
  | [] => ""
  | [a] => a
  | [a, b] => a ++ " and " ++ b
  | [a, b, c] => a ++ ", " ++ b ++ ", and " ++ c
  | a :: rest => a ++ ", " ++ listFormatEn rest

/-- Models JS truthiness of a JSON value (`!packageData.type`). -/
def jsTruthy : Json → Bool
  | .str s => s ≠ ""
  | .num n => n ≠ 0
  | .bool b => b
  | .null => false
  | .arr _ => true
  | .obj _ => true

/-- Models JS string coercion (`\x27\x27 + value`) for the value shapes that
can reach it here (string, number, boolean, null; arrays and objects are
dispatched before these message sites and are given rough renderings). -/
def jsToString : Json → String
  | .str s => s
  | .num n => toString n
  | .bool b => if b then "true" else "false"
  | .null => "null"
  | .arr _ => "[array]"
  | .obj _ => "[object Object]"

/-- Models `JSON.stringify` for the leaf shapes that can reach
`exports-value-invalid` (numbers and booleans; strings, arrays and objects
are dispatched before that message site). -/
def jsonStringify : Json → String
  | .str s => "\x22" ++ s ++ "\x22"
  | .num n => toString n
  | .bool b => if b then "true" else "false"
  | .null => "null"
  | .arr _ => "[array]"
  | .obj _ => "[object]"

/-- Models property lookup `object[key]`; JSON produced by `JSON.parse` has
distinct keys, for which first-match lookup agrees with JS. -/
def jsonLookup (fields : List (String × Json)) (key : String) : Option Json :=
  match fields.find? (fun f => f.fst == key) with
  | some f => some f.snd
  | none => none

/-- Models `pathToPosixPath` (source lines 1298-1300) with the posix
separator: `\x27./\x27 + value.split(path.sep).join(\x27/\x27)`. -/
def pathToPosixPath (value : String) : String :=
  "./" ++ joinSep "/" (jsSplitChar '/' value)

/-- A diagnostic: stable rule id, rendered reason, anchoring JSON path.
Resolving the path to a source span (`jsonc-parser` / `vfile-location`) is
external and not modelled. -/
structure Msg where
  ruleId : String
  reason : String
  jsonPath : List Seg
deriving DecidableEq, Repr

/-- Builds a diagnostic. -/
def mkMsg (ruleId reason : String) (jsonPath : List Seg) : Msg :=
  ⟨ruleId, reason, jsonPath⟩

/-- The `Info` threaded through the walk (source typedef `Info`). -/
structure Info where
  conditions : Option (List String)
  path : List Seg
  pathOrder : List Nat
  specifier : Option String
deriving DecidableEq, Repr

/-- The `RawExport` record of the source.  The source field `exists` is a
Lean keyword and is rendered `exists_`.  The `url` field is produced by the
external URL resolver in `Env`. -/
structure RawExport where
  conditions : Option (List String)
  exists_ : Bool
  filePath : String
  globbed : Bool
  jsonPath : List Seg
  jsonPathOrder : List Nat
  specifier : String
  url : String
deriving DecidableEq, Repr

/-- The `NegatedExport` record of the source. -/
structure NegatedExport where
  conditions : Option (List String)
  jsonPath : List Seg
  jsonPathOrder : List Nat
  specifier : String
deriving DecidableEq, Repr

/-- The mutable `State` of the source, minus the externally-owned `file`,
`location`, `tree` and `packageUrl` fields. -/
structure State where
  exports : List RawExport
  negatedExports : List NegatedExport
  messages : List Msg
  packagedFiles : List String
deriving DecidableEq, Repr

/-- The external collaborators: `minimatch` (given the `*`-split pieces of
the value pattern, i.e. the pattern `valueParts.join(\x27**/*\x27)` with
`dot`, `nobrace`, `noext`), the WHATWG URL resolution against the fixed
package URL, and the `fs.access` probe on a resolved URL. -/
structure Env where
  mmMatch : List String → String → Bool
  urlResolve : String → String
  fsAccess : String → Bool

/-- Appends a diagnostic (the source `message` helper; span resolution is
external). -/
def pushMessage (st : State) (m : Msg) : State :=
  { st with messages := st.messages ++ [m] }

/-- The `MutuallyExclusiveInfo` typedef of the source. -/
structure MutuallyExclusiveInfo where
  conditions : List String
  exhaustive : Bool
deriving DecidableEq, Repr

/-- The fixed table of mutually exclusive condition groups (source lines
133-165). -/
def mutuallyExclusiveConditions : List MutuallyExclusiveInfo :=
  [ { conditions := ["development", "production"], exhaustive := false },
    { conditions := ["import", "require"], exhaustive := true },
    { conditions := ["node", "node-addons"], exhaustive := false },
    { conditions :=
        ["browser", "edge-routine", "workerd", "deno", "lagon", "react-native",
         "moddable", "netlify", "electron", "node", "bun", "react-server",
         "edge-light", "fastly"],
      exhaustive := false } ]

/-- The `mainDefaults` table (source line 121). -/
def mainDefaults : List String :=
  ["./index.js", "./index.json", "./index.node"]

/-- The `mainSuffixes` table (source lines 124-131). -/
def mainSuffixes : List String :=
  [".js", ".json", ".node", "/index.js", "/index.json", "/index.node"]

/-- The `arrayEquivalent` helper (source lines 1282-1292): equal length and
every element of `left` occurs in `right`. -/
def arrayEquivalent (left right : List String) : Bool :=
  left.length == right.length && left.all (fun value => right.contains value)

/-- The inner loop of the mutual-exclusivity check (source lines 576-599):
scan the active conditions in order and stop at the first one belonging to
the group. -/
def firstConflict (groupConditions : List String) : List String → Option String
  | [] => none
  | other :: rest =>
    if groupConditions.contains other then some other
    else firstConflict groupConditions rest

/-- The `exports-conditions-mutually-exclusive` message for a key and the
conflicting active condition it clashes with. -/
def mutexMsg (condition other : String) (path : List Seg) : Msg :=
  mkMsg "exports-conditions-mutually-exclusive"
    ("Unexpected condition `" ++ condition ++
      "` mutually exclusive with `" ++ other ++ "` at `" ++
      displayPath path ++
      "` which never matches, use only one of these conditions")
    (path ++ [Seg.key condition])

/-- The `exports-conditions-mutually-exclusive` messages emitted for one key
of a conditions object (source lines 570-600): for every group containing
the key, one message naming the first conflicting active condition, if any.
The `break` of the source leaves the inner loop only, so the outer loop over
the groups continues. -/
def mutexMessagesFor (condition : String) (conds : Option (List String))
    (path : List Seg) : List Msg :=
  (mutuallyExclusiveConditions.map (fun exclusive =>
    match conds with
    | none => []
    | some cs =>
      if exclusive.conditions.contains condition then
        match firstConflict exclusive.conditions cs with
        | some other => [mutexMsg condition other path]
        | none => []
      else [])).flatten

/-- The `types`-redundancy test of `resolveExportsConditions` (source lines
549-555): split the `default` path on dots, pop the extension, and compare
`types` with the re-joined `.d.*` form. -/
def typesVerboseHit (d t : String) : Bool :=
  let parts := jsSplitChar '.' d
  let extname := (parts.getLast?).getD ""
  let front := parts.dropLast
  (extname = "js" || extname = "cjs" || extname = "mjs") &&
    t = joinSep "." (front ++ ["d", replaceFirstChar 'j' 't' extname])

/-- Occurrence scan of `findWildcardReplacements` (source lines 1179-1187):
all positions at which `second` occurs in `filePath` at index `start` or
later, in ascending order (the JS loop repeatedly calls
`indexOf(second, ...)`). -/
def fwrOptions (first second : String) (filePath : String) : List String :=
  let fl := filePath.toList
  let start := first.toList.length
  let positions :=
    (List.range (fl.length + 1)).filter
      (fun i => decide (start ≤ i) && second.toList.isPrefixOf (fl.drop i))
  let opts :=
    if second = "" then []
    else positions.map (fun i => ((fl.take i).drop start).asString)
  opts ++ [(fl.drop start).asString]

/-- The `findWildcardReplacements` helper (source lines 1165-1198): for each
matched file, the first candidate substitution that round-trips through the
whole value pattern.  The source asserts that `parts` has at least two
pieces (it is the `*`-split of a string containing `*`); the fallback arm is
unreachable. -/
def findWildcardReplacements (parts : List String) (filePaths : List String) :
    List String :=
  match parts with
  | first :: second :: _ =>
    filePaths.filterMap (fun filePath =>
      (fwrOptions first second filePath).find?
        (fun option => joinSep option parts == filePath))
  | _ => []

/-- The `checkExists` probe (source lines 1131-1151), returning the updated
export and the diagnostic for a failed probe.  The source pushes the record
first and mutates its `exists` flag after the `await`; the model returns the
settled record. -/
def checkExists (env : Env) (e : RawExport) : RawExport × Option Msg :=
  if env.fsAccess e.url then ({ e with exists_ := true }, none)
  else
    ({ e with exists_ := false },
      some (mkMsg "exports-path-not-found"
        ("Unexpected missing file `" ++ e.filePath ++ "` for specifier `" ++
          e.specifier ++ "` at `" ++ displayPath e.jsonPath ++ "`")
        e.jsonPath))

/-- The `addResolved` helper (source lines 1092-1123).  The extra fields of
`AddInfo` are the two boolean arguments. -/
def addResolved (env : Env) (info : Info)
    (definitelyExists explicitlyDefined : Bool)
    (specifier : String) (value : Option String) (st : State) : State :=
  match value with
  | none =>
    { st with
      negatedExports := st.negatedExports ++
        [{ conditions := info.conditions, jsonPath := info.path,
           jsonPathOrder := info.pathOrder, specifier := specifier }] }
  | some v =>
    let e : RawExport :=
      { conditions := info.conditions, exists_ := false, filePath := v,
        globbed := !explicitlyDefined, jsonPath := info.path,
        jsonPathOrder := info.pathOrder, specifier := specifier,
        url := env.urlResolve v }
    if definitelyExists || st.packagedFiles.contains v then
      { st with exports := st.exports ++ [{ e with exists_ := true }] }
    else
      let checked := checkExists env e
      let st2 := { st with exports := st.exports ++ [checked.fst] }
      match checked.snd with
      | none => st2
      | some m => pushMessage st2 m

/-- The `addDynamic` helper (source lines 1040-1082): filter the packaged
files through the external glob matcher, recover substitutions, and add one
resolved entry per substitution. -/
def addDynamic (env : Env) (info : Info) (specifier : String × String)
    (valueParts : List String) (st : State) : State :=
  let results := st.packagedFiles.filter (env.mmMatch valueParts)
  if results.isEmpty then
    pushMessage st (mkMsg "exports-path-wildcard-not-found"
      ("Unexpected dynamic file glob `" ++ joinSep "*" valueParts ++
        "` at `" ++ displayPath info.path ++ "` pointing to nothing, expected files")
      info.path)
  else
    (findWildcardReplacements valueParts results).foldl
      (fun acc replacement =>
        addResolved env info true false
          (specifier.fst ++ replacement ++ specifier.snd)
          (some (joinSep replacement valueParts)) acc)
      st

/-- The leaf dispatch of `addValue` after the invalid/unprefixed checks
(source lines 779-848). -/
def addValueLeaf (env : Env) (info : Info) (value : Option String)
    (st : State) : State :=
  let specifier := info.specifier.getD "."
  match strIndexOfChar specifier '*', value with
  | none, _ => addResolved env info false true specifier value st
  | some _, none => addResolved env info false true specifier none st
  | some i, some s =>
    if strContainsChar (strDrop specifier (i + 1)) '*' then
      pushMessage st (mkMsg "exports-specifier-wildcard-invalid"
        ("Unexpected extra wildcard in dynamic specifier `" ++ specifier ++
          "` at `" ++ displayPath info.path ++ "`, one wildcard is allowed")
        info.path)
    else
      match strIndexOfChar s '*' with
      | none =>
        addResolved env info false true specifier (some s)
          (pushMessage st (mkMsg "exports-specifier-wildcard-useless"
            ("Unexpected dynamic specifier `" ++ specifier ++
              "` pointing to static file `" ++ s ++ "` at `" ++
              displayPath info.path ++
              "`, use dynamic specifiers with dynamic file globs")
            info.path))
      | some _ =>
        addDynamic env info (strTake specifier i, strDrop specifier (i + 1))
          (jsSplitChar '*' s) st

/-- The `addValue` helper (source lines 745-848). -/
def addValue (env : Env) (info : Info) (v : Json) (st : State) : State :=
  match v with
  | .str s =>
    if !strStartsWith s "./" then
      pushMessage st (mkMsg "exports-path-unprefixed"
        ("Unexpected unprefixed value `\x27" ++ s ++ "\x27` at `" ++
          displayPath info.path ++
          "` which is not importable, did you mean `\x27./" ++ s ++ "\x27`")
        info.path)
    else addValueLeaf env info (some s) st
  | .null => addValueLeaf env info none st
  | other =>
    pushMessage st (mkMsg "exports-value-invalid"
      ("Unexpected invalid value `" ++ jsonStringify other ++ "` at `" ++
        displayPath info.path ++ "` which is not importable, expected " ++
        (if info.specifier.isSome then "" else "specifier object, ") ++
        "conditions object, `string` (path to file), or `null` (negated)")
      info.path)

/-- The type of the recursive entry point threaded through the walk
helpers. -/
abbrev Recur := Info → Json → State → State

/-- The per-key loop of `resolveExportsConditions` (source lines 570-621):
mutual-exclusivity diagnostics for the key, then recursion into the value
with extended conditions, path and path order. -/
def resolveExportsConditionsItems (recur : Recur) (info : Info) (index : Nat) :
    List (String × Json) → State → State
  | [], st => st
  | (condition, value) :: rest, st =>
    let st1 := (mutexMessagesFor condition info.conditions info.path).foldl
      pushMessage st
    let st2 := recur
      { conditions := some (info.conditions.getD [] ++ [condition]),
        path := info.path ++ [Seg.key condition],
        pathOrder := info.pathOrder ++ [index],
        specifier := info.specifier } value st1
    resolveExportsConditionsItems recur info (index + 1) rest st2

/-- The `exports-types-verbose` message, anchored at the `types` key. -/
def typesVerboseMsg (path : List Seg) : Msg :=
  mkMsg "exports-types-verbose"
    ("Unexpected verbose `types` condition at `" ++ displayPath path ++
      "` matching what TypeScript would load for `default` without it, remove it")
    (path ++ [Seg.key "types"])

/-- The `exports-conditions-default-missing` message. -/
def defaultMissingMsg (info : Info) : Msg :=
  mkMsg "exports-conditions-default-missing"
    ("Unexpected conditions without a `default` entry at `" ++
      displayPath info.path ++ "` making specifier `" ++
      (info.specifier.getD ".") ++
      "` unusable by default, expected `\x27default\x27` condition as the last field")
    info.path

/-- The opening phase of `resolveExportsConditions` (source lines 529-566):
the sole-`default` verbosity check and the `types`-redundancy check. -/
def conditionsPrelude (info : Info) (fields : List (String × Json))
    (st : State) : State :=
  let keys := fields.map Prod.fst
  let st1 :=
    if keys = ["default"] then
      pushMessage st (mkMsg "exports-conditions-verbose"
        ("Unexpected verbose conditions object with sole key `default` at `" ++
          displayPath info.path ++
          "`, replace the object with the value at `default`")
        info.path)
    else st
  match jsonLookup fields "default", jsonLookup fields "types" with
  | some (.str d), some (.str t) =>
    if keys.contains "default" && keys.contains "types" &&
        typesVerboseHit d t then
      pushMessage st1 (typesVerboseMsg info.path)
    else st1
  | _, _ => st1

/-- The closing phase of `resolveExportsConditions` (source lines 623-667):
`default` placement and exhaustiveness.  The source asserts a nonempty key
list (guaranteed by `resolveExportsObject`); `hasDefault` and `last` are
the loop-tracked values, expressed as `contains` and `getLast?`. -/
def conditionsFinale (info : Info) (keys : List String) (st : State) : State :=
  let hasDefault := keys.contains "default"
  let exhaustive := mutuallyExclusiveConditions.any (fun exclusive =>
    exclusive.exhaustive && exclusive.conditions.all (fun d => keys.contains d))
  if hasDefault then
    match keys.getLast? with
    | some last =>
      if last ≠ "default" then
        pushMessage st (mkMsg "exports-conditions-default-misplaced"
          ("Unexpected non-last `default` conditions at `" ++
            displayPath info.path ++
            "` ignoring everything after it, move the `default` condition to the end")
          (info.path ++ [Seg.key last]))
      else st
    | none => st
  else if exhaustive then st
  else pushMessage st (defaultMissingMsg info)

/-- The `resolveExportsConditions` helper (source lines 521-670): prelude
checks, the per-key loop, then the `default` checks. -/
def resolveExportsConditions (recur : Recur) (info : Info)
    (fields : List (String × Json)) (st : State) : State :=
  conditionsFinale info (fields.map Prod.fst)
    (resolveExportsConditionsItems recur info 0 fields
      (conditionsPrelude info fields st))

/-- The per-key loop of `resolveExportsSpecifiers` (source lines 696-732):
extension diagnostic, then recursion with the key as specifier. -/
def resolveExportsSpecifiersItems (recur : Recur) (info : Info)
    (keys : List String) (index : Nat) :
    List (String × Json) → State → State
  | [], st => st
  | (specifier, value) :: rest, st =>
    let parts := jsSplitChar '.' specifier
    let extension := (parts.getLast?).getD ""
    let st1 :=
      if extension ≠ "" && !strContainsChar extension '/' then
        let restName := joinSep "." parts.dropLast
        pushMessage st (mkMsg "exports-specifier-extension"
          ("Unexpected extension `." ++ extension ++ "` in specifier `" ++
            specifier ++ "` at `" ++ displayPath info.path ++
            "`, extensions have no meaning in specifiers" ++
            (if keys.contains restName then ", remove it"
             else ", expected `" ++ restName ++ "`"))
          info.path)
      else st
    let st2 := recur
      { conditions := info.conditions,
        path := info.path ++ [Seg.key specifier],
        pathOrder := info.pathOrder ++ [index],
        specifier := some specifier } value st1
    resolveExportsSpecifiersItems recur info keys (index + 1) rest st2

/-- The `exports-specifiers-verbose` message. -/
def specifiersVerboseMsg (path : List Seg) : Msg :=
  mkMsg "exports-specifiers-verbose"
    ("Unexpected verbose specifier object with sole key `.` at `" ++
      displayPath path ++ "`, replace the object with the value at `.`")
    path

/-- The `resolveExportsSpecifiers` helper (source lines 678-735). -/
def resolveExportsSpecifiers (recur : Recur) (info : Info)
    (fields : List (String × Json)) (st : State) : State :=
  let keys := fields.map Prod.fst
  let st1 :=
    if keys = ["."] then pushMessage st (specifiersVerboseMsg info.path)
    else st
  resolveExportsSpecifiersItems recur info keys 0 fields st1

/-- The `resolveExportsObject` dispatcher (source lines 443-512): empty,
mixed, nested-specifier, specifiers or conditions. -/
def resolveExportsObject (recur : Recur) (info : Info)
    (fields : List (String × Json)) (st : State) : State :=
  let keys := fields.map Prod.fst
  match keys with
  | [] =>
    pushMessage st (mkMsg "exports-object-empty"
      ("Unexpected empty object at `" ++ displayPath info.path ++
        "` doing nothing, expected fields")
      info.path)
  | k0 :: krest =>
    let dots := strStartsWith k0 "."
    let mixed := krest.any (fun k => strStartsWith k "." ≠ dots)
    if mixed then
      pushMessage st (mkMsg "exports-object-mixed"
        ("Unexpected mixed specifiers (starting with `.`) and conditions (without `.`) at `" ++
          displayPath info.path ++ "`, expected either specifiers or conditions")
        info.path)
    else if dots && info.specifier.isSome then
      pushMessage st (mkMsg "exports-specifier-nested"
        ("Unexpected nested specifier" ++ (if keys.length > 1 then "s" else "") ++
          " " ++ listFormatEn (keys.map (fun d => "`" ++ d ++ "`")) ++
          " at `" ++ displayPath info.path ++ "`, expected conditions")
        info.path)
    else if dots then resolveExportsSpecifiers recur info fields st
    else resolveExportsConditions recur info fields st

/-- The `exports-alternatives-empty` message. -/
def alternativesEmptyMsg (path : List Seg) : Msg :=
  mkMsg "exports-alternatives-empty"
    ("Unexpected empty array at `" ++ displayPath path ++
      "` doing nothing, expected a single item")
    path

/-- The `exports-alternatives` message. -/
def alternativesMsg (path : List Seg) : Msg :=
  mkMsg "exports-alternatives"
    ("Unexpected alternatives list at `" ++ displayPath path ++
      "`, several tools don’t support this and pick the first item")
    path

/-- The `resolveExportsList` helper (source lines 398-433): empty array
diagnostic, or alternatives diagnostic and recursion into index 0 only. -/
def resolveExportsList (recur : Recur) (info : Info) (items : List Json)
    (st : State) : State :=
  match items with
  | [] => pushMessage st (alternativesEmptyMsg info.path)
  | item0 :: _ =>
    recur
      { conditions := info.conditions,
        path := info.path ++ [Seg.idx 0],
        pathOrder := info.pathOrder ++ [0],
        specifier := info.specifier }
      item0
      (pushMessage st (alternativesMsg info.path))

/-- The recursive dispatcher `resolveExports` (source lines 370-388), with a
fuel argument tying the open recursion; fuel larger than the value depth
(e.g. `sizeOf v + 1`) never reaches the exhausted branch. -/
def resolveExports (env : Env) : Nat → Info → Json → State → State
  | 0, _, _, st => st
  | fuel + 1, info, v, st =>
    match v with
    | .arr items => resolveExportsList (resolveExports env fuel) info items st
    | .obj fields => resolveExportsObject (resolveExports env fuel) info fields st
    | other => addValue env info other st

/-- The head of `resolveMainExport` (source lines 856-940): classify the
`main` field, emit its diagnostics, and return the resolved main file (if
any) together with the `warned` flag. -/
def resolveMainHead (main : Option Json) (typeVal : Option Json) (st : State) :
    State × Option String × Bool :=
  match main with
  | none => (st, none, false)
  | some (.str m) =>
    let normal := if strStartsWith m "./" then m else "./" ++ m
    if st.packagedFiles.contains normal then
      (pushMessage st (mkMsg "main"
        ("Unexpected legacy `main` field that does not encapsulate the package, it’s recommended to use an export map such as `\x22exports\x22: \x22" ++
          normal ++ "\x22`")
        [Seg.key "main"]), some normal, false)
    else
      match mainSuffixes.find?
          (fun suffix => st.packagedFiles.contains (normal ++ suffix)) with
      | some suffix =>
        let found := normal ++ suffix
        match typeVal with
        | some (.str "module") =>
          (pushMessage st (mkMsg "main-resolve-module"
            ("Unexpected `main` field `" ++ m ++
              "` that does not resolve with `type: \x27module\x27`, use an export map such as `\x22exports\x22: \x22" ++
              found ++ "\x22`")
            [Seg.key "main"]), none, true)
        | _ =>
          (pushMessage st (mkMsg "main-resolve-commonjs"
            ("Unexpected `main` field `" ++ m ++ "` that resolves to `" ++
              found ++
              "` in CJS, this works but is slow and doesn’t work with `type: \x27module\x27, use the resolved value explicitly")
            [Seg.key "main"]), some found, false)
      | none =>
        (pushMessage st (mkMsg "main-not-found"
          ("Unexpected missing file for `main` field `" ++ m ++ "`")
          [Seg.key "main"]), none, true)
  | some other =>
    (pushMessage st (mkMsg "main-invalid"
      ("Unexpected non-string `main` field `" ++ jsToString other ++ "`")
      [Seg.key "main"]), none, true)

/-- The `resolveMainExport` helper (source lines 856-1001). -/
def resolveMainExport (env : Env) (main : Option Json) (typeVal : Option Json)
    (st : State) : State :=
  let head := resolveMainHead main typeVal st
  let st1 := head.fst
  let warned := head.snd.snd
  match head.snd.fst with
  | some mainFound =>
    addResolved env
      { conditions := none, path := [Seg.key "main"], pathOrder := [0],
        specifier := none }
      true true "." (some mainFound) st1
  | none =>
    match mainDefaults.find? (fun option => st1.packagedFiles.contains option) with
    | some mainFound =>
      addResolved env
        { conditions := none, path := [], pathOrder := [], specifier := none }
        true false "." (some mainFound)
        (pushMessage st1 (mkMsg "main-inferred"
          ("Unexpected inferred main export `" ++ mainFound ++
            "`, it’s recommended to use an export map such as `\x22exports\x22: \x22" ++
            mainFound ++ "\x22`")
          []))
    | none =>
      if warned then st1
      else
        pushMessage st1 (mkMsg "main-missing"
          "Unexpected missing main module, it’s recommended to use an export map such as `\x22exports\x22: \x22./index.js\x22`"
          [])

/-- The `resolvePackagedFiles` fallback (source lines 1007-1030): one
resolved entry per packaged file, at its own path as specifier. -/
def resolvePackagedFiles (env : Env) (st : State) : State :=
  st.packagedFiles.foldl
    (fun acc file =>
      addResolved env
        { conditions := none, path := [], pathOrder := [],
          specifier := some file }
        true false file (some file) acc)
    st

/-- The match test of the negation pass (source lines 259-282): specifier
prefix/suffix test around the first `*` (exact equality when there is none),
and the `arrayEquivalent` condition test with both-absent counting as a
match. -/
def negMatches (negated : NegatedExport) (e : RawExport) : Bool :=
  (match strIndexOfChar negated.specifier '*' with
    | none => e.specifier == negated.specifier
    | some i =>
      strStartsWith e.specifier (strTake negated.specifier i) &&
        strEndsWith e.specifier (strDrop negated.specifier (i + 1))) &&
  (match e.conditions, negated.conditions with
    | some l, some r => arrayEquivalent l r
    | none, none => true
    | _, _ => false)

/-- The splice loop of the negation pass (source lines 269-287): walk the
list, remove every match (the `splice` + `index--` idiom), and report
whether anything was removed. -/
def removeMatching (p : RawExport → Bool) :
    List RawExport → List RawExport × Bool
  | [] => ([], false)
  | e :: rest =>
    let r := removeMatching p rest
    if p e then (r.fst, true) else (e :: r.fst, r.snd)

/-- The `exports-negated-missing` message. -/
def negatedMissingMsg (negated : NegatedExport) : Msg :=
  mkMsg "exports-negated-missing"
    ("Unexpected negation specifier `" ++ negated.specifier ++ "` at `" ++
      displayPath negated.jsonPath ++ "` with nothing to negate")
    negated.jsonPath

/-- One iteration of the negation pass (source lines 258-304): remove the
matching entries, and emit `exports-negated-missing` when none matched. -/
def processNegated (st : State) (negated : NegatedExport) : State :=
  let r := removeMatching (negMatches negated) st.exports
  let st1 := { st with exports := r.fst }
  if r.snd then st1
  else pushMessage st1 (negatedMissingMsg negated)

/-- The whole negation pass: process the accumulated negations in order. -/
def processNegations (st : State) : State :=
  st.negatedExports.foldl processNegated st

/-- The `npm-ignored` message (the fix hint depends on whether the package
has a `files` field). -/
def npmIgnoredMsg (files : Bool) (e : RawExport) : Msg :=
  mkMsg "npm-ignored"
    ("Unexpected file `" ++ e.filePath ++ "` at `" ++
      displayPath e.jsonPath ++
      "` which is excluded from the npm package, " ++
      (if files then "add it to `files` in `package.json`"
       else "remove it from `.npmignore`"))
    e.jsonPath

/-- The packaging check (source lines 338-354): for every entry that exists
and whose declared file path is not packaged, emit `npm-ignored`. -/
def npmIgnoredPass (files : Bool) (st : State) : State :=
  st.exports.foldl
    (fun acc e =>
      if e.exists_ && !acc.packagedFiles.contains e.filePath then
        pushMessage acc (npmIgnoredMsg files e)
      else acc)
    st

/-- The first nonzero element of a list, as the comparison of the list
against the all-zero padding (the tail phase of the `compareExport` loop
where the other side reads `|| 0`). -/
def cmpZeros : List Nat → Int
  | [] => 0
  | x :: l => if x ≠ 0 then (x : Int) else cmpZeros l

/-- The padded lexicographic comparison of the `jsonPathOrder` loop in
`compareExport` (source lines 1258-1266): positions beyond the end read as
`0` (`left.jsonPathOrder[index] || 0`), first nonzero difference wins. -/
def cmpPadded : List Nat → List Nat → Int
  | [], b => -(cmpZeros b)
  | x :: l, [] => cmpZeros (x :: l)
  | x :: l, y :: r => if x ≠ y then (x : Int) - (y : Int) else cmpPadded l r

/-- Codepoint comparison of strings, modelling the sign of the external
`localeCompare` (Intl collation; only the sign is consumed by the sort). -/
def charListCmp : List Char → List Char → Int
  | [], [] => 0
  | [], _ => -1
  | _, [] => 1
  | x :: l, y :: r =>
    if x.toNat ≠ y.toNat then (x.toNat : Int) - (y.toNat : Int)
    else charListCmp l r

/-- The `compareExport` comparator (source lines 1257-1273): path order,
then specifier segment count, then alphabetical. -/
def compareExport (left right : RawExport) : Int :=
  let c := cmpPadded left.jsonPathOrder right.jsonPathOrder
  if c ≠ 0 then c
  else
    let segs : Int := (jsSplitChar '/' left.specifier).length -
      (jsSplitChar '/' right.specifier).length
    if segs ≠ 0 then segs
    else charListCmp left.specifier.toList right.specifier.toList

/-- The boolean order used to model `Array.prototype.sort(compareExport)`. -/
def compareExportLe (left right : RawExport) : Bool :=
  compareExport left right ≤ 0

/-- Models `state.exports.sort(compareExport)` with a stable merge sort (JS
`sort` is required to be stable). -/
def sortExports (l : List RawExport) : List RawExport :=
  l.mergeSort compareExportLe

/-- The parsed `package.json` object and the output of the external
`npm-packlist` (relative posix paths without a `./` prefix). -/
structure PkgInput where
  pkg : List (String × Json)
  packedFilesRaw : List String

/-- The opening field checks of `packageExports` (source lines 207-243):
`name`, `type` and `files`; message-only. -/
def preambleChecks (inp : PkgInput) (st : State) : State :=
  let st1 :=
    match jsonLookup inp.pkg "name" with
    | some (.str _) => st
    | _ =>
      pushMessage st (mkMsg "name-missing"
        "Unexpected missing `name` field, expected a package name" [])
  let st2 :=
    match jsonLookup inp.pkg "type" with
    | some t =>
      if !jsTruthy t then
        pushMessage st1 (mkMsg "type-missing"
          "Unexpected missing `type` field, expected `type: \x27commonjs\x27` or `\x27module\x27`"
          [])
      else
        match t with
        | .str "commonjs" => st1
        | .str "module" => st1
        | _ =>
          pushMessage st1 (mkMsg "type-invalid"
            ("Unexpected invalid `type` value `" ++ jsToString t ++
              "`, expected `commonjs` or `module`")
            [Seg.key "type"])
    | none =>
      pushMessage st1 (mkMsg "type-missing"
        "Unexpected missing `type` field, expected `type: \x27commonjs\x27` or `\x27module\x27`"
        [])
  if (jsonLookup inp.pkg "files").isSome then st2
  else
    pushMessage st2 (mkMsg "files-missing"
      "Unexpected missing `files` field, expected array of allowed files to include"
      [])

/-- The export resolution stage of `packageExports` (source lines 245-336):
when an `exports` field is present, walk it (with ample fuel), run the
negation pass, and check the main specifier and the legacy `main` field;
otherwise fall back to `main` resolution and the packaged-file
enumeration. -/
def exportsOrMainStage (env : Env) (inp : PkgInput) (st : State) : State :=
  match jsonLookup inp.pkg "exports" with
  | some exportsValue =>
    let st4 := resolveExports env (Json.fuel exportsValue + 1)
      { conditions := none, path := [Seg.key "exports"], pathOrder := [0],
        specifier := none }
      exportsValue st
    let st5 := processNegations st4
    let st6 :=
      if st5.exports.any (fun d => d.specifier == ".") then st5
      else
        pushMessage st5 (mkMsg "exports-main-missing"
          "Unexpected missing main specifier `.`, expected an export to the main module"
          [])
    if (jsonLookup inp.pkg "main").isSome then
      pushMessage st6 (mkMsg "main-extra"
        "Unexpected unused legacy `main` field with modern `exports`, remove it"
        [Seg.key "main"])
    else st6
  | none =>
    resolvePackagedFiles env
      (resolveMainExport env (jsonLookup inp.pkg "main")
        (jsonLookup inp.pkg "type") st)

/-- The initial state of a `packageExports` run: no entries or messages,
and the packed file list normalised to `./`-prefixed posix paths
(source lines 196-205). -/
def initialState (inp : PkgInput) : State :=
  { exports := [], negatedExports := [], messages := [],
    packagedFiles := inp.packedFilesRaw.map pathToPosixPath }

/-- The full `packageExports` pipeline (source lines 176-360) up to the
final state: field checks, walk, negation pass, main checks, packaging
check and sort.  Message position sorting (`vfile-sort`) is external and
not modelled; all claims below are order-insensitive on messages. -/
def packageExportsState (env : Env) (inp : PkgInput) : State :=
  let st9 := npmIgnoredPass (jsonLookup inp.pkg "files").isSome
    (exportsOrMainStage env inp (preambleChecks inp (initialState inp)))
  { st9 with exports := sortExports st9.exports }

/-- The external `Export` shape (the `RawExport` with `filePath`, `globbed`
and `jsonPathOrder` stripped, source lines 1308-1311). -/
structure Export where
  conditions : Option (List String)
  exists_ : Bool
  jsonPath : List Seg
  specifier : String
  url : String
deriving DecidableEq, Repr

/-- The `rawExportToExport` projection. -/
def rawExportToExport (raw : RawExport) : Export :=
  { conditions := raw.conditions, exists_ := raw.exists_,
    jsonPath := raw.jsonPath, specifier := raw.specifier, url := raw.url }

/-- The `Result` shape of `packageExports`. -/
structure ResultModel where
  exports : List Export
  messages : List Msg
  name : Option String
deriving DecidableEq, Repr

/-- The full `packageExports` entry point (source lines 176-360). -/
def packageExports (env : Env) (inp : PkgInput) : ResultModel :=
  let st := packageExportsState env inp
  { exports := st.exports.map rawExportToExport,
    messages := st.messages,
    name :=
      match jsonLookup inp.pkg "name" with
      | some (.str n) => some n
      | _ => none }

/-- Counts the diagnostics with a given rule id anchored at a given path. -/
def countMsgsAt (msgs : List Msg) (ruleId : String) (path : List Seg) : Nat :=
  (msgs.filter (fun m => m.ruleId == ruleId && m.jsonPath == path)).length

/-- Counts the diagnostics with a given rule id (any anchor). -/
def countRule (msgs : List Msg) (ruleId : String) : Nat :=
  (msgs.filter (fun m => m.ruleId == ruleId)).length

/-! ## Message provenance

Every walk function only appends messages, and each appended message is
anchored at or below the `info.path` of the call.  `exports-types-verbose`
moreover always anchors strictly below the path of the conditions object
that emits it.  These facts justify all the counting arguments below. -/

/-- A diagnostic produced while resolving a subtree rooted at `base`: its
anchor extends `base`, and an `exports-types-verbose` anchor is strictly
longer than `base`. -/
def MsgFrom (base : List Seg) (m : Msg) : Prop :=
  base <+: m.jsonPath ∧
    (m.ruleId = "exports-types-verbose" → base.length + 1 ≤ m.jsonPath.length)

/-- State evolution of a walk function: messages are appended and every new
message is `MsgFrom` the base path. -/
def MsgsFrom (base : List Seg) (st st' : State) : Prop :=
  ∃ d, st'.messages = st.messages ++ d ∧ ∀ m ∈ d, MsgFrom base m

/-- Strict variant (satisfied by the conditions-items loop): every new
message anchors strictly below `base`, and `exports-types-verbose` at least
two levels below. -/
def MsgsFromStrict (base : List Seg) (st st' : State) : Prop :=
  ∃ d, st'.messages = st.messages ++ d ∧ ∀ m ∈ d,
    (base.length + 1 ≤ m.jsonPath.length ∧ base <+: m.jsonPath) ∧
    (m.ruleId = "exports-types-verbose" → base.length + 2 ≤ m.jsonPath.length)

theorem msgsFrom_of_messages_eq {base : List Seg} {st st' : State}
    (h : st'.messages = st.messages) : MsgsFrom base st st' :=
  ⟨[], by simpa using h, by simp⟩

theorem msgsFrom_refl {base : List Seg} {st : State} : MsgsFrom base st st :=
  msgsFrom_of_messages_eq rfl

theorem msgsFrom_trans {base : List Seg} {st1 st2 st3 : State}
    (h1 : MsgsFrom base st1 st2) (h2 : MsgsFrom base st2 st3) :
    MsgsFrom base st1 st3 := by
  obtain ⟨d1, e1, p1⟩ := h1
  obtain ⟨d2, e2, p2⟩ := h2
  refine ⟨d1 ++ d2, by rw [e2, e1, List.append_assoc], ?_⟩
  intro m hm
  rcases List.mem_append.mp hm with h | h
  · exact p1 m h
  · exact p2 m h

theorem msgsFrom_push {base : List Seg} {st : State} {m : Msg}
    (h : MsgFrom base m) : MsgsFrom base st (pushMessage st m) :=
  ⟨[m], rfl, by simpa using h⟩

theorem msgsFromStrict_of_messages_eq {base : List Seg} {st st' : State}
    (h : st'.messages = st.messages) : MsgsFromStrict base st st' :=
  ⟨[], by simpa using h, by simp⟩

theorem msgsFromStrict_trans {base : List Seg} {st1 st2 st3 : State}
    (h1 : MsgsFromStrict base st1 st2) (h2 : MsgsFromStrict base st2 st3) :
    MsgsFromStrict base st1 st3 := by
  obtain ⟨d1, e1, p1⟩ := h1
  obtain ⟨d2, e2, p2⟩ := h2
  refine ⟨d1 ++ d2, by rw [e2, e1, List.append_assoc], ?_⟩
  intro m hm
  rcases List.mem_append.mp hm with h | h
  · exact p1 m h
  · exact p2 m h

theorem msgsFromStrict_msgsFrom {base : List Seg} {st st' : State}
    (h : MsgsFromStrict base st st') : MsgsFrom base st st' := by
  obtain ⟨d, e, p⟩ := h
  exact ⟨d, e, fun m hm => ⟨(p m hm).1.2, fun ht => by
    have := (p m hm).2 ht; omega⟩⟩

/-- Lifting a child call (at `base ++ ext` with `ext ≠ []`) to a strict
extension of the parent base. -/
theorem msgsFrom_child_strict {base ext : List Seg} {st st' : State}
    (hext : ext ≠ []) (h : MsgsFrom (base ++ ext) st st') :
    MsgsFromStrict base st st' := by
  obtain ⟨d, e, p⟩ := h
  refine ⟨d, e, fun m hm => ?_⟩
  obtain ⟨hpre, htv⟩ := p m hm
  have hlen : (base ++ ext).length ≤ m.jsonPath.length := hpre.length_le
  have hextlen : 1 ≤ ext.length := by
    cases ext with
    | nil => exact absurd rfl hext
    | cons a l => simp
  constructor
  · refine ⟨?_, (List.prefix_append base ext).trans hpre⟩
    simp only [List.length_append] at hlen
    omega
  · intro ht
    have := htv ht
    simp only [List.length_append] at this
    omega

/-- Weakening a child call to the parent base. -/
theorem msgsFrom_mono {base ext : List Seg} {st st' : State}
    (h : MsgsFrom (base ++ ext) st st') : MsgsFrom base st st' := by
  obtain ⟨d, e, p⟩ := h
  refine ⟨d, e, fun m hm => ?_⟩
  obtain ⟨hpre, htv⟩ := p m hm
  constructor
  · exact (List.prefix_append base ext).trans hpre
  · intro ht
    have := htv ht
    simp only [List.length_append] at this
    omega

theorem msgFrom_self {base : List Seg} {r s : String}
    (h : r ≠ "exports-types-verbose") : MsgFrom base (mkMsg r s base) :=
  ⟨List.prefix_refl base, fun ht => absurd ht h⟩

theorem checkExists_msgs {env : Env} {e : RawExport} {m : Msg}
    (h : (checkExists env e).snd = some m) :
    m.jsonPath = e.jsonPath ∧ m.ruleId = "exports-path-not-found" := by
  unfold checkExists at h
  split at h
  · simp at h
  · simp only [Option.some.injEq] at h
    subst h
    exact ⟨rfl, rfl⟩

theorem addResolved_msgs {env : Env} {info : Info} {de ed : Bool}
    {spec : String} {v : Option String} {st : State} :
    MsgsFrom info.path st (addResolved env info de ed spec v st) := by
  unfold addResolved
  match v with
  | none => exact msgsFrom_of_messages_eq rfl
  | some s =>
    dsimp only
    split
    · exact msgsFrom_of_messages_eq rfl
    · split
      · exact msgsFrom_of_messages_eq rfl
      · next m heq =>
        have hm := checkExists_msgs heq
        refine msgsFrom_trans (msgsFrom_of_messages_eq rfl) (msgsFrom_push ?_)
        refine ⟨?_, fun ht => absurd (hm.2.symm.trans ht) (by decide)⟩
        rw [hm.1]

theorem foldl_addResolved_msgs {env : Env} {info : Info} {de ed : Bool}
    {f : String → String} {g : String → Option String}
    (l : List String) (st : State) :
    MsgsFrom info.path st
      (l.foldl (fun acc r => addResolved env info de ed (f r) (g r) acc) st) := by
  induction l generalizing st with
  | nil => exact msgsFrom_refl
  | cons r rest ih =>
    exact msgsFrom_trans addResolved_msgs (ih _)

theorem addDynamic_msgs {env : Env} {info : Info} {spec : String × String}
    {valueParts : List String} {st : State} :
    MsgsFrom info.path st (addDynamic env info spec valueParts st) := by
  unfold addDynamic
  dsimp only
  split
  · exact msgsFrom_push (msgFrom_self (by decide))
  · exact foldl_addResolved_msgs _ _

theorem addValueLeaf_msgs {env : Env} {info : Info} {v : Option String}
    {st : State} : MsgsFrom info.path st (addValueLeaf env info v st) := by
  unfold addValueLeaf
  dsimp only
  split
  · exact addResolved_msgs
  · exact addResolved_msgs
  · split
    · exact msgsFrom_push (msgFrom_self (by decide))
    · split
      · exact msgsFrom_trans (msgsFrom_push (msgFrom_self (by decide)))
          addResolved_msgs
      · exact addDynamic_msgs

theorem addValue_msgs {env : Env} {info : Info} {v : Json} {st : State} :
    MsgsFrom info.path st (addValue env info v st) := by
  unfold addValue
  match v with
  | .str s =>
    simp only
    split
    · exact msgsFrom_push (msgFrom_self (by decide))
    · exact addValueLeaf_msgs
  | .null => exact addValueLeaf_msgs
  | .num n => exact msgsFrom_push (msgFrom_self (by decide))
  | .bool b => exact msgsFrom_push (msgFrom_self (by decide))
  | .arr items => exact msgsFrom_push (msgFrom_self (by decide))
  | .obj fields => exact msgsFrom_push (msgFrom_self (by decide))

theorem mutexMessagesFor_mem {condition : String} {conds : Option (List String)}
    {path : List Seg} {m : Msg} (h : m ∈ mutexMessagesFor condition conds path) :
    ∃ other, m = mutexMsg condition other path := by
  unfold mutexMessagesFor at h
  rw [List.mem_flatten] at h
  obtain ⟨l, hl, hm⟩ := h
  rw [List.mem_map] at hl
  obtain ⟨ex, _, rfl⟩ := hl
  rcases conds with _ | cs
  · simp at hm
  · simp only at hm
    split at hm
    · rcases hfc : firstConflict ex.conditions cs with _ | other <;> rw [hfc] at hm
      · simp at hm
      · simp only [List.mem_singleton] at hm
        exact ⟨other, hm⟩
    · simp at hm

theorem pushAll_mutex_msgs (condition : String) (conds : Option (List String))
    (base : List Seg) (st : State) :
    MsgsFromStrict base st
      ((mutexMessagesFor condition conds base).foldl pushMessage st) := by
  have step : ∀ (l : List Msg),
      (∀ m ∈ l, ∃ other, m = mutexMsg condition other base) →
      ∀ s : State, MsgsFromStrict base s (l.foldl pushMessage s) := by
    intro l
    induction l with
    | nil => intro _ s; exact msgsFromStrict_of_messages_eq rfl
    | cons m rest ih =>
      intro hmem s
      obtain ⟨other, rfl⟩ := hmem m (by simp)
      refine msgsFromStrict_trans ⟨[mutexMsg condition other base], rfl, ?_⟩
        (ih (fun m hm => hmem m (by simp [hm])) _)
      intro m hm
      simp only [List.mem_singleton] at hm
      subst hm
      refine ⟨⟨by simp [mutexMsg, mkMsg], ⟨[Seg.key condition], rfl⟩⟩, fun ht => ?_⟩
      exact absurd ht (by simp [mutexMsg, mkMsg])
  exact step _ (fun m hm => mutexMessagesFor_mem hm) st

theorem resolveExportsConditionsItems_msgs {recur : Recur} {info : Info}
    (hrec : ∀ info2 v st2, MsgsFrom info2.path st2 (recur info2 v st2)) :
    ∀ (fields : List (String × Json)) (index : Nat) (st : State),
    MsgsFromStrict info.path st
      (resolveExportsConditionsItems recur info index fields st) := by
  intro fields
  induction fields with
  | nil => intro _ st; exact msgsFromStrict_of_messages_eq rfl
  | cons f rest ih =>
    intro index st
    obtain ⟨condition, value⟩ := f
    exact msgsFromStrict_trans
      (msgsFromStrict_trans (pushAll_mutex_msgs condition info.conditions info.path st)
        (msgsFrom_child_strict (by simp) (hrec _ value _)))
      (ih _ _)

theorem conditionsPrelude_msgs {info : Info} {fields : List (String × Json)}
    (st : State) : MsgsFrom info.path st (conditionsPrelude info fields st) := by
  unfold conditionsPrelude
  dsimp only
  split
  · split
    · refine msgsFrom_trans ?_
        (msgsFrom_push ⟨⟨[Seg.key "types"], rfl⟩, fun _ => by
          simp [typesVerboseMsg, mkMsg]⟩)
      split
      · exact msgsFrom_push (msgFrom_self (by decide))
      · exact msgsFrom_refl
    · split
      · exact msgsFrom_push (msgFrom_self (by decide))
      · exact msgsFrom_refl
  · split
    · exact msgsFrom_push (msgFrom_self (by decide))
    · exact msgsFrom_refl

theorem conditionsFinale_msgs {info : Info} {keys : List String} (st : State) :
    MsgsFrom info.path st (conditionsFinale info keys st) := by
  unfold conditionsFinale
  dsimp only
  split
  · split
    · split
      · exact msgsFrom_push ⟨⟨_, rfl⟩, fun ht => absurd ht (by simp [mkMsg])⟩
      · exact msgsFrom_refl
    · exact msgsFrom_refl
  · split
    · exact msgsFrom_refl
    · exact msgsFrom_push (msgFrom_self (by simp [defaultMissingMsg, mkMsg]))

theorem resolveExportsConditions_msgs {recur : Recur} {info : Info}
    {fields : List (String × Json)} {st : State}
    (hrec : ∀ info2 v st2, MsgsFrom info2.path st2 (recur info2 v st2)) :
    MsgsFrom info.path st (resolveExportsConditions recur info fields st) := by
  unfold resolveExportsConditions
  exact msgsFrom_trans
    (msgsFrom_trans (conditionsPrelude_msgs st)
      (msgsFromStrict_msgsFrom
        (resolveExportsConditionsItems_msgs hrec fields 0 _)))
    (conditionsFinale_msgs _)

theorem resolveExportsSpecifiersItems_msgs {recur : Recur} {info : Info}
    {keys : List String}
    (hrec : ∀ info2 v st2, MsgsFrom info2.path st2 (recur info2 v st2)) :
    ∀ (fields : List (String × Json)) (index : Nat) (st : State),
    MsgsFrom info.path st
      (resolveExportsSpecifiersItems recur info keys index fields st) := by
  intro fields
  induction fields with
  | nil => intro _ st; exact msgsFrom_refl
  | cons f rest ih =>
    intro index st
    obtain ⟨specifier, value⟩ := f
    refine msgsFrom_trans (msgsFrom_trans ?_ (msgsFrom_mono (hrec _ value _))) (ih _ _)
    dsimp only
    split
    · exact msgsFrom_push (msgFrom_self (by decide))
    · exact msgsFrom_refl

theorem resolveExportsSpecifiers_msgs {recur : Recur} {info : Info}
    {fields : List (String × Json)} {st : State}
    (hrec : ∀ info2 v st2, MsgsFrom info2.path st2 (recur info2 v st2)) :
    MsgsFrom info.path st (resolveExportsSpecifiers recur info fields st) := by
  unfold resolveExportsSpecifiers
  refine msgsFrom_trans ?_ (resolveExportsSpecifiersItems_msgs hrec fields 0 _)
  dsimp only
  split
  · exact msgsFrom_push (msgFrom_self (by simp [specifiersVerboseMsg, mkMsg]))
  · exact msgsFrom_refl

theorem resolveExportsObject_msgs {recur : Recur} {info : Info}
    {fields : List (String × Json)} {st : State}
    (hrec : ∀ info2 v st2, MsgsFrom info2.path st2 (recur info2 v st2)) :
    MsgsFrom info.path st (resolveExportsObject recur info fields st) := by
  unfold resolveExportsObject
  simp only
  split
  · exact msgsFrom_push (msgFrom_self (by decide))
  · split
    · exact msgsFrom_push (msgFrom_self (by decide))
    · split
      · exact msgsFrom_push (msgFrom_self (by decide))
      · split
        · exact resolveExportsSpecifiers_msgs hrec
        · exact resolveExportsConditions_msgs hrec

theorem resolveExportsList_msgs {recur : Recur} {info : Info}
    {items : List Json} {st : State}
    (hrec : ∀ info2 v st2, MsgsFrom info2.path st2 (recur info2 v st2)) :
    MsgsFrom info.path st (resolveExportsList recur info items st) := by
  unfold resolveExportsList
  match items with
  | [] =>
    exact msgsFrom_push (msgFrom_self (by simp [alternativesEmptyMsg, mkMsg]))
  | item0 :: rest =>
    refine msgsFrom_trans
      (msgsFrom_push (msgFrom_self (by simp [alternativesMsg, mkMsg])))
      (msgsFrom_mono (hrec _ item0 _))

theorem resolveExports_msgs (env : Env) :
    ∀ (fuel : Nat) (info : Info) (v : Json) (st : State),
    MsgsFrom info.path st (resolveExports env fuel info v st) := by
  intro fuel
  induction fuel with
  | zero => intro info v st; exact msgsFrom_refl
  | succ n ih =>
    intro info v st
    match v with
    | .arr items => exact resolveExportsList_msgs ih
    | .obj fields => exact resolveExportsObject_msgs ih
    | .str s => exact addValue_msgs
    | .null => exact addValue_msgs
    | .num k => exact addValue_msgs
    | .bool b => exact addValue_msgs

/-! ## The negation splice loop is a filter

The `while`/`splice`/`index--` loop of the negation pass removes exactly the
matching entries, in order, and reports whether any match was removed. -/

theorem removeMatching_spec (p : RawExport → Bool) (l : List RawExport) :
    removeMatching p l = (l.filter (fun e => !p e), l.any p) := by
  induction l with
  | nil => rfl
  | cons e rest ih =>
    unfold removeMatching
    rw [ih]
    by_cases h : p e
    · simp [h]
    · simp [h]

/-! ## Specifier shape invariant

Every entry ever appended by the walk has a specifier whose first character
is `.`: literal leaves use a dot-prefixed key (or the root default `.`),
wildcard expansion keeps the dot-prefixed prefix of the dynamic key, and
the fallbacks use `.` or a `./`-prefixed packaged file path. -/

theorem strStartsWith_iff_cons {s : String} {c : Char} :
    strStartsWith s (String.mk [c]) = true ↔ ∃ l, s.toList = c :: l := by
  unfold strStartsWith
  rw [List.isPrefixOf_iff_prefix]
  constructor
  · rintro ⟨t, ht⟩
    exact ⟨t, ht.symm⟩
  · rintro ⟨l, hl⟩
    exact ⟨l, hl.symm⟩

theorem dot_string_eq : "." = String.mk ['.'] := rfl

theorem dotted_append_left {a : String} (b : String)
    (h : strStartsWith a "." = true) : strStartsWith (a ++ b) "." = true := by
  rw [dot_string_eq, strStartsWith_iff_cons] at h ⊢
  obtain ⟨l, hl⟩ := h
  refine ⟨l ++ b.toList, ?_⟩
  show (a ++ b).data = '.' :: (l ++ b.data)
  rw [String.data_append]
  show a.data ++ b.data = _
  rw [show a.data = a.toList from rfl, hl]
  rfl

theorem findIdx?_ge {α : Type} (p : α → Bool) :
    ∀ (l : List α) (n i : Nat), List.findIdx? p l n = some i → n ≤ i := by
  intro l
  induction l with
  | nil => intro n i h; simp [List.findIdx?] at h
  | cons x rest ih =>
    intro n i h
    rw [List.findIdx?_cons] at h
    split at h
    · simp only [Option.some.injEq] at h
      omega
    · have := ih (n + 1) i h
      omega

theorem dotted_strTake {s : String} {i : Nat}
    (hd : strStartsWith s "." = true)
    (hi : strIndexOfChar s '*' = some i) :
    strStartsWith (strTake s i) "." = true := by
  rw [dot_string_eq, strStartsWith_iff_cons] at hd
  obtain ⟨l, hl⟩ := hd
  unfold strIndexOfChar at hi
  rw [hl, List.findIdx?_cons, if_neg (by decide)] at hi
  have h1 : 1 ≤ i := findIdx?_ge _ l 1 i hi
  rw [dot_string_eq, strStartsWith_iff_cons]
  unfold strTake
  rw [hl]
  obtain ⟨j, rfl⟩ : ∃ j, i = j + 1 := ⟨i - 1, by omega⟩
  exact ⟨l.take j, by rw [List.take_succ_cons, List.toList_asString]⟩

/-- The dotted-specifier state invariant: all accumulated entries and all
packaged file paths start with `.`. -/
def DottedState (st : State) : Prop :=
  (∀ e ∈ st.exports, strStartsWith e.specifier "." = true) ∧
  (∀ f ∈ st.packagedFiles, strStartsWith f "." = true)

/-- The dotted invariant on the optional specifier of an `Info`. -/
def DottedOpt : Option String → Prop
  | none => True
  | some s => strStartsWith s "." = true

theorem dottedState_push {st : State} {m : Msg} (h : DottedState st) :
    DottedState (pushMessage st m) := h

theorem dottedState_append_export {st : State} {e : RawExport}
    (h : DottedState st) (he : strStartsWith e.specifier "." = true) :
    DottedState { st with exports := st.exports ++ [e] } := by
  refine ⟨fun x hx => ?_, h.2⟩
  rcases List.mem_append.mp hx with h1 | h1
  · exact h.1 x h1
  · simp only [List.mem_singleton] at h1
    subst h1
    exact he

theorem checkExists_specifier (env : Env) (e : RawExport) :
    (checkExists env e).fst.specifier = e.specifier := by
  unfold checkExists
  split <;> rfl

theorem addResolved_dotted {env : Env} {info : Info} {de ed : Bool}
    {spec : String} {v : Option String} {st : State}
    (h : DottedState st) (hs : strStartsWith spec "." = true) :
    DottedState (addResolved env info de ed spec v st) := by
  unfold addResolved
  match v with
  | none => exact h
  | some s =>
    dsimp only
    split
    · exact dottedState_append_export h hs
    · split
      · exact dottedState_append_export h
          (by rw [checkExists_specifier]; exact hs)
      · exact dottedState_push (dottedState_append_export h
          (by rw [checkExists_specifier]; exact hs))

theorem addDynamic_dotted {env : Env} {info : Info} {spec : String × String}
    {valueParts : List String} {st : State}
    (h : DottedState st) (hs : strStartsWith spec.fst "." = true) :
    DottedState (addDynamic env info spec valueParts st) := by
  unfold addDynamic
  dsimp only
  split
  · exact dottedState_push h
  · have : ∀ (l : List String) (s : State), DottedState s →
        DottedState (l.foldl (fun acc replacement =>
          addResolved env info true false
            (spec.fst ++ replacement ++ spec.snd)
            (some (joinSep replacement valueParts)) acc) s) := by
      intro l
      induction l with
      | nil => intro s hs2; exact hs2
      | cons r rest ih =>
        intro s hs2
        exact ih _ (addResolved_dotted hs2
          (by rw [String.append_assoc]; exact dotted_append_left _ hs))
    exact this _ _ h

theorem addValueLeaf_dotted {env : Env} {info : Info} {v : Option String}
    {st : State} (h : DottedState st) (hs : DottedOpt info.specifier) :
    DottedState (addValueLeaf env info v st) := by
  have hspec : strStartsWith (info.specifier.getD ".") "." = true := by
    rcases hi : info.specifier with _ | s
    · decide
    · rw [hi] at hs
      exact hs
  unfold addValueLeaf
  rcases hidx : strIndexOfChar (info.specifier.getD ".") '*' with _ | i
  · rcases v with _ | s <;> simp only [hidx] <;>
      exact addResolved_dotted h hspec
  · rcases v with _ | s <;> simp only [hidx]
    · exact addResolved_dotted h hspec
    · split
      · exact dottedState_push h
      · split
        · exact addResolved_dotted (dottedState_push h) hspec
        · exact addDynamic_dotted h (dotted_strTake hspec hidx)

theorem addValue_dotted {env : Env} {info : Info} {v : Json} {st : State}
    (h : DottedState st) (hs : DottedOpt info.specifier) :
    DottedState (addValue env info v st) := by
  unfold addValue
  match v with
  | .str s =>
    dsimp only
    split
    · exact dottedState_push h
    · exact addValueLeaf_dotted h hs
  | .null => exact addValueLeaf_dotted h hs
  | .num n => exact dottedState_push h
  | .bool b => exact dottedState_push h
  | .arr items => exact dottedState_push h
  | .obj fields => exact dottedState_push h

theorem foldl_pushMessage_dotted {l : List Msg} {st : State}
    (h : DottedState st) : DottedState (l.foldl pushMessage st) := by
  induction l generalizing st with
  | nil => exact h
  | cons m rest ih => exact ih (dottedState_push h)

theorem resolveExportsConditionsItems_dotted {recur : Recur} {info : Info}
    (hrec : ∀ info2 v st2, DottedState st2 → DottedOpt info2.specifier →
      DottedState (recur info2 v st2))
    (hs : DottedOpt info.specifier) :
    ∀ (fields : List (String × Json)) (index : Nat) (st : State),
    DottedState st →
    DottedState (resolveExportsConditionsItems recur info index fields st) := by
  intro fields
  induction fields with
  | nil => intro _ st h; exact h
  | cons f rest ih =>
    intro index st h
    obtain ⟨condition, value⟩ := f
    exact ih _ _ (hrec _ value _ (foldl_pushMessage_dotted h) hs)

theorem conditionsPrelude_dotted {info : Info} {fields : List (String × Json)}
    {st : State} (h : DottedState st) :
    DottedState (conditionsPrelude info fields st) := by
  unfold conditionsPrelude
  dsimp only
  split
  · split
    · split <;> exact dottedState_push (by first | exact dottedState_push h | exact h)
    · split
      · exact dottedState_push h
      · exact h
  · split
    · exact dottedState_push h
    · exact h

theorem conditionsFinale_dotted {info : Info} {keys : List String}
    {st : State} (h : DottedState st) :
    DottedState (conditionsFinale info keys st) := by
  unfold conditionsFinale
  dsimp only
  split
  · split
    · split
      · exact dottedState_push h
      · exact h
    · exact h
  · split
    · exact h
    · exact dottedState_push h

theorem resolveExportsConditions_dotted {recur : Recur} {info : Info}
    {fields : List (String × Json)} {st : State}
    (hrec : ∀ info2 v st2, DottedState st2 → DottedOpt info2.specifier →
      DottedState (recur info2 v st2))
    (h : DottedState st) (hs : DottedOpt info.specifier) :
    DottedState (resolveExportsConditions recur info fields st) := by
  unfold resolveExportsConditions
  exact conditionsFinale_dotted
    (resolveExportsConditionsItems_dotted hrec hs fields 0 _
      (conditionsPrelude_dotted h))

theorem resolveExportsSpecifiersItems_dotted {recur : Recur} {info : Info}
    {keys : List String}
    (hrec : ∀ info2 v st2, DottedState st2 → DottedOpt info2.specifier →
      DottedState (recur info2 v st2)) :
    ∀ (fields : List (String × Json)) (index : Nat) (st : State),
    (∀ f ∈ fields, strStartsWith f.fst "." = true) →
    DottedState st →
    DottedState (resolveExportsSpecifiersItems recur info keys index fields st) := by
  intro fields
  induction fields with
  | nil => intro _ st _ h; exact h
  | cons f rest ih =>
    intro index st hkeys h
    obtain ⟨specifier, value⟩ := f
    refine ih _ _ (fun f hf => hkeys f (by simp [hf])) ?_
    refine hrec _ value _ ?_ (hkeys ⟨specifier, value⟩ (by simp))
    dsimp only
    split
    · exact dottedState_push h
    · exact h

theorem resolveExportsSpecifiers_dotted {recur : Recur} {info : Info}
    {fields : List (String × Json)} {st : State}
    (hrec : ∀ info2 v st2, DottedState st2 → DottedOpt info2.specifier →
      DottedState (recur info2 v st2))
    (hkeys : ∀ f ∈ fields, strStartsWith f.fst "." = true)
    (h : DottedState st) :
    DottedState (resolveExportsSpecifiers recur info fields st) := by
  unfold resolveExportsSpecifiers
  dsimp only
  refine resolveExportsSpecifiersItems_dotted hrec fields 0 _ hkeys ?_
  split
  · exact dottedState_push h
  · exact h

theorem resolveExportsObject_dotted {recur : Recur} {info : Info}
    {fields : List (String × Json)} {st : State}
    (hrec : ∀ info2 v st2, DottedState st2 → DottedOpt info2.specifier →
      DottedState (recur info2 v st2))
    (h : DottedState st) (hs : DottedOpt info.specifier) :
    DottedState (resolveExportsObject recur info fields st) := by
  unfold resolveExportsObject
  dsimp only
  split
  · exact dottedState_push h
  · next k0 krest heq =>
    split
    · exact dottedState_push h
    · split
      · exact dottedState_push h
      · next hmix hnest =>
        split
        · next hdots =>
          refine resolveExportsSpecifiers_dotted hrec ?_ h
          intro f hf
          have hmem : f.fst ∈ List.map Prod.fst fields := List.mem_map_of_mem _ hf
          rw [heq] at hmem
          rcases List.mem_cons.mp hmem with h1 | h1
          · rw [h1]
            exact hdots
          · by_contra hcon
            refine hmix ?_
            rw [List.any_eq_true]
            refine ⟨f.fst, h1, ?_⟩
            simp only [Bool.not_eq_true] at hcon
            simp [hcon, hdots]
        · exact resolveExportsConditions_dotted hrec h hs

theorem resolveExportsList_dotted {recur : Recur} {info : Info}
    {items : List Json} {st : State}
    (hrec : ∀ info2 v st2, DottedState st2 → DottedOpt info2.specifier →
      DottedState (recur info2 v st2))
    (h : DottedState st) (hs : DottedOpt info.specifier) :
    DottedState (resolveExportsList recur info items st) := by
  unfold resolveExportsList
  match items with
  | [] => exact dottedState_push h
  | item0 :: rest => exact hrec _ item0 _ (dottedState_push h) hs

theorem resolveExports_dotted (env : Env) :
    ∀ (fuel : Nat) (info : Info) (v : Json) (st : State),
    DottedState st → DottedOpt info.specifier →
    DottedState (resolveExports env fuel info v st) := by
  intro fuel
  induction fuel with
  | zero => intro info v st h _; exact h
  | succ n ih =>
    intro info v st h hs
    match v with
    | .arr items => exact resolveExportsList_dotted ih h hs
    | .obj fields => exact resolveExportsObject_dotted ih h hs
    | .str s => exact addValue_dotted h hs
    | .null => exact addValue_dotted h hs
    | .num k => exact addValue_dotted h hs
    | .bool b => exact addValue_dotted h hs

/-! ## Pipeline lemmas: the passes after the walk -/

/-- The packaging check only appends messages: the entries, negations and
packaged files are untouched, and exactly the existing-but-unpackaged
entries get an `npm-ignored` message. -/
theorem npmIgnoredPass_fold (files : Bool) :
    ∀ (l : List RawExport) (acc : State),
    (l.foldl (fun acc e =>
      if e.exists_ && !acc.packagedFiles.contains e.filePath then
        pushMessage acc (npmIgnoredMsg files e)
      else acc) acc) =
    ({ acc with messages := acc.messages ++ List.map (npmIgnoredMsg files) (l.filter (fun e => e.exists_ && !acc.packagedFiles.contains e.filePath)) } : State) := by
  intro l
  induction l with
  | nil => intro acc; simp
  | cons e rest ih =>
    intro acc
    rw [List.foldl_cons]
    by_cases hc : (e.exists_ && !acc.packagedFiles.contains e.filePath) = true
    · rw [if_pos hc, ih]
      have hc2 : e.exists_ = true ∧ e.filePath ∉ acc.packagedFiles := by
        simpa using hc
      simp [pushMessage, List.filter_cons, hc2.1, hc2.2]
    · rw [if_neg hc, ih]
      have hc2 : ¬(e.exists_ = true ∧ e.filePath ∉ acc.packagedFiles) := by
        simpa using hc
      simp [pushMessage, List.filter_cons, hc2]

theorem npmIgnoredPass_spec (files : Bool) (st : State) :
    npmIgnoredPass files st =
      ({ st with messages := st.messages ++ List.map (npmIgnoredMsg files) (st.exports.filter (fun e => e.exists_ && !st.packagedFiles.contains e.filePath)) } : State) :=
  npmIgnoredPass_fold files st.exports st

theorem processNegated_exports_subset {st : State} {negated : NegatedExport}
    {e : RawExport} (h : e ∈ (processNegated st negated).exports) :
    e ∈ st.exports := by
  unfold processNegated at h
  rw [removeMatching_spec] at h
  dsimp only at h
  split at h <;>
    exact List.mem_of_mem_filter h

theorem processNegations_exports_subset {st : State} {e : RawExport}
    (h : e ∈ (processNegations st).exports) : e ∈ st.exports := by
  unfold processNegations at h
  have key : ∀ (l : List NegatedExport) (acc : State),
      e ∈ (l.foldl processNegated acc).exports → e ∈ acc.exports := by
    intro l
    induction l with
    | nil => intro acc h; exact h
    | cons n rest ih =>
      intro acc h
      exact processNegated_exports_subset (ih _ h)
  exact key _ _ h

theorem processNegated_packagedFiles (st : State) (negated : NegatedExport) :
    (processNegated st negated).packagedFiles = st.packagedFiles := by
  unfold processNegated
  dsimp only
  split <;> rfl

theorem processNegations_packagedFiles (st : State) :
    (processNegations st).packagedFiles = st.packagedFiles := by
  unfold processNegations
  have key : ∀ (l : List NegatedExport) (acc : State),
      (l.foldl processNegated acc).packagedFiles = acc.packagedFiles := by
    intro l
    induction l with
    | nil => intro acc; rfl
    | cons n rest ih =>
      intro acc
      rw [List.foldl_cons, ih, processNegated_packagedFiles]
  exact key _ _

theorem processNegations_dotted {st : State} (h : DottedState st) :
    DottedState (processNegations st) := by
  refine ⟨fun e he => h.1 e (processNegations_exports_subset he), ?_⟩
  rw [processNegations_packagedFiles]
  exact h.2

theorem resolveMainHead_fields (main typeVal : Option Json) (st : State) :
    (resolveMainHead main typeVal st).fst.exports = st.exports ∧
    (resolveMainHead main typeVal st).fst.negatedExports = st.negatedExports ∧
    (resolveMainHead main typeVal st).fst.packagedFiles = st.packagedFiles := by
  unfold resolveMainHead
  match main with
  | none => exact ⟨rfl, rfl, rfl⟩
  | some (.str m) =>
    dsimp only
    repeat' split
    all_goals exact ⟨rfl, rfl, rfl⟩
  | some (.num n) => exact ⟨rfl, rfl, rfl⟩
  | some (.bool b) => exact ⟨rfl, rfl, rfl⟩
  | some .null => exact ⟨rfl, rfl, rfl⟩
  | some (.arr items) => exact ⟨rfl, rfl, rfl⟩
  | some (.obj fields) => exact ⟨rfl, rfl, rfl⟩

theorem resolveMainExport_dotted {env : Env} {main typeVal : Option Json}
    {st : State} (h : DottedState st) :
    DottedState (resolveMainExport env main typeVal st) := by
  unfold resolveMainExport
  have hfields := resolveMainHead_fields main typeVal st
  have hhead : DottedState (resolveMainHead main typeVal st).fst := by
    constructor
    · rw [hfields.1]
      exact h.1
    · rw [hfields.2.2]
      exact h.2
  dsimp only
  split
  · exact addResolved_dotted hhead (by decide)
  · split
    · exact addResolved_dotted (dottedState_push hhead) (by decide)
    · split
      · exact hhead
      · exact dottedState_push hhead

theorem resolvePackagedFiles_dotted {env : Env} {st : State}
    (h : DottedState st) : DottedState (resolvePackagedFiles env st) := by
  unfold resolvePackagedFiles
  have key : ∀ (l : List String) (acc : State), DottedState acc →
      (∀ f ∈ l, strStartsWith f "." = true) →
      DottedState (l.foldl (fun acc file =>
        addResolved env
          { conditions := none, path := [], pathOrder := [],
            specifier := some file }
          true false file (some file) acc) acc) := by
    intro l
    induction l with
    | nil => intro acc hacc _; exact hacc
    | cons f rest ih =>
      intro acc hacc hl
      exact ih _ (addResolved_dotted hacc (hl f (by simp)))
        (fun g hg => hl g (by simp [hg]))
  exact key _ _ h h.2

theorem pathToPosixPath_dotted (v : String) :
    strStartsWith (pathToPosixPath v) "." = true := by
  unfold pathToPosixPath
  exact dotted_append_left _ (by decide)

theorem initialState_dotted (inp : PkgInput) : DottedState (initialState inp) := by
  refine ⟨fun e he => absurd he (by simp [initialState]), fun f hf => ?_⟩
  simp only [initialState, List.mem_map] at hf
  obtain ⟨v, _, rfl⟩ := hf
  exact pathToPosixPath_dotted v

theorem preambleChecks_dotted {inp : PkgInput} {st : State}
    (h : DottedState st) : DottedState (preambleChecks inp st) := by
  unfold preambleChecks
  dsimp only
  repeat' split
  all_goals exact h

theorem exportsOrMainStage_dotted {env : Env} {inp : PkgInput} {st : State}
    (h : DottedState st) : DottedState (exportsOrMainStage env inp st) := by
  unfold exportsOrMainStage
  split
  · dsimp only
    repeat' split
    all_goals first
      | exact processNegations_dotted
          (resolveExports_dotted env _ _ _ _ h (by trivial))
      | exact dottedState_push (processNegations_dotted
          (resolveExports_dotted env _ _ _ _ h (by trivial)))
      | exact dottedState_push (dottedState_push (processNegations_dotted
          (resolveExports_dotted env _ _ _ _ h (by trivial))))
  · exact resolvePackagedFiles_dotted (resolveMainExport_dotted h)

theorem npmIgnoredPass_dotted {files : Bool} {st : State}
    (h : DottedState st) : DottedState (npmIgnoredPass files st) := by
  rw [npmIgnoredPass_spec]
  exact h

/-! ## The comparator is a total preorder

`compareExport` behaves like a lexicographic comparison on
(zero-padded path order, specifier segment count, specifier text), so the
final `sort` produces a sorted list and sorting is idempotent. -/

theorem cmpZeros_nonneg : ∀ l : List Nat, 0 ≤ cmpZeros l := by
  intro l
  induction l with
  | nil => simp [cmpZeros]
  | cons x l ih =>
    simp only [cmpZeros]
    split
    · omega
    · exact ih

theorem cmpPadded_zero_right :
    ∀ (b c : List Nat), cmpZeros c = 0 → cmpPadded b c = cmpZeros b := by
  intro b
  induction b with
  | nil =>
    intro c hc
    simp only [cmpPadded, hc, cmpZeros]
    omega
  | cons x l ih =>
    intro c hc
    cases c with
    | nil => rfl
    | cons y r =>
      simp only [cmpZeros] at hc
      split at hc
      · omega
      · next hy =>
        have hy0 : y = 0 := by omega
        subst hy0
        simp only [cmpPadded, cmpZeros]
        split
        · omega
        · exact ih r hc

theorem cmpPadded_neg : ∀ (a b : List Nat), cmpPadded b a = -cmpPadded a b := by
  intro a
  induction a with
  | nil =>
    intro b
    cases b with
    | nil => simp [cmpPadded, cmpZeros]
    | cons y r => simp [cmpPadded]
  | cons x l ih =>
    intro b
    cases b with
    | nil => simp [cmpPadded]
    | cons y r =>
      simp only [cmpPadded]
      by_cases hxy : x = y
      · subst hxy
        rw [if_neg (by omega), if_neg (by omega)]
        exact ih r
      · rw [if_pos (by omega), if_pos (by omega)]
        omega

theorem cmpPadded_zero_left {b : List Nat} (c : List Nat)
    (hb : cmpZeros b = 0) : cmpPadded b c = -(cmpZeros c) := by
  rw [show cmpPadded b c = -(cmpPadded c b) from by rw [cmpPadded_neg],
    cmpPadded_zero_right c b hb]

theorem cmpPadded_trans :
    ∀ (a b c : List Nat),
    cmpPadded a b ≤ 0 → cmpPadded b c ≤ 0 →
    cmpPadded a c ≤ 0 ∧
      (cmpPadded a c = 0 → cmpPadded a b = 0 ∧ cmpPadded b c = 0) := by
  intro a
  induction a with
  | nil =>
    intro b c hab hbc
    have hc := cmpZeros_nonneg c
    have hb := cmpZeros_nonneg b
    refine ⟨by simp only [cmpPadded]; omega, fun h0 => ?_⟩
    simp only [cmpPadded] at h0 ⊢
    have hc0 : cmpZeros c = 0 := by omega
    rw [cmpPadded_zero_right b c hc0] at hbc ⊢
    constructor
    · omega
    · omega
  | cons x a2 ih =>
    intro b c hab hbc
    cases b with
    | nil =>
      have ha : cmpZeros (x :: a2) = 0 := by
        have := cmpZeros_nonneg (x :: a2)
        simp only [cmpPadded] at hab
        omega
      have hc := cmpZeros_nonneg c
      rw [cmpPadded_zero_left c ha]
      refine ⟨by omega, fun h0 => ?_⟩
      have hc0 : cmpZeros c = 0 := by omega
      constructor
      · simp only [cmpPadded]
        exact ha
      · simp only [cmpPadded]
        omega
    | cons y b2 =>
      cases c with
      | nil =>
        have hb : cmpZeros (y :: b2) = 0 := by
          have := cmpZeros_nonneg (y :: b2)
          simp only [cmpPadded] at hbc
          omega
        rw [cmpPadded_zero_right _ _ hb] at hab
        have ha := cmpZeros_nonneg (x :: a2)
        have ha0 : cmpZeros (x :: a2) = 0 := by omega
        refine ⟨?_, fun h0 => ?_⟩
        · simp only [cmpPadded]
          omega
        · constructor
          · rw [cmpPadded_zero_right _ _ hb]
            exact ha0
          · simp only [cmpPadded]
            omega
      | cons z c2 =>
        simp only [cmpPadded] at hab hbc ⊢
        by_cases hxy : x = y
        · subst hxy
          rw [if_neg (by omega)] at hab
          by_cases hyz : x = z
          · subst hyz
            rw [if_neg (by omega)] at hbc ⊢
            have hrec := ih b2 c2 hab hbc
            refine ⟨hrec.1, fun h0 => ?_⟩
            obtain ⟨e1, e2⟩ := hrec.2 h0
            rw [if_neg (by omega), if_neg (by omega)]
            exact ⟨e1, e2⟩
          · rw [if_pos (by omega)] at hbc ⊢
            exact ⟨by omega, fun h0 => by omega⟩
        · rw [if_pos (by omega)] at hab
          by_cases hyz : y = z
          · subst hyz
            rw [if_pos (by omega)]
            exact ⟨by omega, fun h0 => by omega⟩
          · rw [if_pos (by omega)] at hbc
            rw [if_pos (by omega)]
            exact ⟨by omega, fun h0 => by omega⟩

theorem charListCmp_neg : ∀ (a b : List Char), charListCmp b a = -charListCmp a b := by
  intro a
  induction a with
  | nil =>
    intro b
    cases b <;> simp [charListCmp]
  | cons x l ih =>
    intro b
    cases b with
    | nil => simp [charListCmp]
    | cons y r =>
      simp only [charListCmp]
      by_cases hxy : x.toNat = y.toNat
      · rw [if_neg (by omega), if_neg (by omega), ih r]
      · rw [if_pos (by omega), if_pos (by omega)]
        omega

theorem charListCmp_trans :
    ∀ (a b c : List Char),
    charListCmp a b ≤ 0 → charListCmp b c ≤ 0 →
    charListCmp a c ≤ 0 ∧
      (charListCmp a c = 0 → charListCmp a b = 0 ∧ charListCmp b c = 0) := by
  intro a
  induction a with
  | nil =>
    intro b c hab hbc
    cases c with
    | nil =>
      refine ⟨le_refl 0, fun _ => ?_⟩
      cases b with
      | nil => exact ⟨rfl, rfl⟩
      | cons y r => simp [charListCmp] at hbc
    | cons z s =>
      exact ⟨by simp [charListCmp], fun h => by simp [charListCmp] at h⟩
  | cons x l ih =>
    intro b c hab hbc
    cases b with
    | nil => simp [charListCmp] at hab
    | cons y r =>
      cases c with
      | nil => simp [charListCmp] at hbc
      | cons z s =>
        simp only [charListCmp] at hab hbc ⊢
        by_cases hxy : x.toNat = y.toNat
        · rw [if_neg (by omega)] at hab
          by_cases hyz : y.toNat = z.toNat
          · rw [if_neg (by omega)] at hbc
            have hrec := ih r s hab hbc
            refine ⟨by rw [if_neg (by omega)]; exact hrec.1, fun h0 => ?_⟩
            rw [if_neg (by omega)] at h0
            obtain ⟨e1, e2⟩ := hrec.2 h0
            rw [if_neg (by omega), if_neg (by omega)]
            exact ⟨e1, e2⟩
          · rw [if_pos (by omega)] at hbc
            rw [if_pos (by omega)]
            exact ⟨by omega, fun h0 => by omega⟩
        · rw [if_pos (by omega)] at hab
          by_cases hyz : y.toNat = z.toNat
          · rw [if_pos (by omega)]
            exact ⟨by omega, fun h0 => by omega⟩
          · rw [if_pos (by omega)] at hbc
            rw [if_pos (by omega)]
            exact ⟨by omega, fun h0 => by omega⟩

/-- The integer segment count of a specifier, the middle comparison stage. -/
def segCount (e : RawExport) : Int :=
  ((jsSplitChar '/' e.specifier).length : Int)

theorem compareExport_eq (a b : RawExport) :
    compareExport a b =
      (if cmpPadded a.jsonPathOrder b.jsonPathOrder ≠ 0 then
        cmpPadded a.jsonPathOrder b.jsonPathOrder
      else if segCount a - segCount b ≠ 0 then segCount a - segCount b
      else charListCmp a.specifier.toList b.specifier.toList) := rfl

theorem compareExport_trans {a b c : RawExport}
    (hab : compareExport a b ≤ 0) (hbc : compareExport b c ≤ 0) :
    compareExport a c ≤ 0 := by
  rw [compareExport_eq] at hab hbc ⊢
  by_cases h1 : cmpPadded a.jsonPathOrder b.jsonPathOrder = 0
  · rw [if_neg (show ¬cmpPadded a.jsonPathOrder b.jsonPathOrder ≠ 0 by omega)] at hab
    by_cases h2 : cmpPadded b.jsonPathOrder c.jsonPathOrder = 0
    · rw [if_neg (show ¬cmpPadded b.jsonPathOrder c.jsonPathOrder ≠ 0 by omega)] at hbc
      have h3 : cmpPadded a.jsonPathOrder c.jsonPathOrder = 0 := by
        have hle := (cmpPadded_trans a.jsonPathOrder b.jsonPathOrder c.jsonPathOrder
          (by omega) (by omega)).1
        have hge := (cmpPadded_trans c.jsonPathOrder b.jsonPathOrder a.jsonPathOrder
          (by rw [cmpPadded_neg]; omega) (by rw [cmpPadded_neg]; omega)).1
        rw [cmpPadded_neg] at hge
        omega
      rw [if_neg (show ¬cmpPadded a.jsonPathOrder c.jsonPathOrder ≠ 0 by omega)]
      by_cases h4 : segCount a - segCount b = 0
      · rw [if_neg (show ¬(segCount a - segCount b ≠ 0) by omega)] at hab
        by_cases h5 : segCount b - segCount c = 0
        · rw [if_neg (show ¬(segCount b - segCount c ≠ 0) by omega)] at hbc
          rw [if_neg (show ¬(segCount a - segCount c ≠ 0) by omega)]
          exact (charListCmp_trans _ _ _ hab hbc).1
        · rw [if_pos (show segCount b - segCount c ≠ 0 by omega)] at hbc
          rw [if_pos (show segCount a - segCount c ≠ 0 by omega)]
          omega
      · rw [if_pos (show segCount a - segCount b ≠ 0 by omega)] at hab
        by_cases h5 : segCount b - segCount c = 0
        · rw [if_pos (show segCount a - segCount c ≠ 0 by omega)]
          omega
        · rw [if_pos (show segCount b - segCount c ≠ 0 by omega)] at hbc
          rw [if_pos (show segCount a - segCount c ≠ 0 by omega)]
          omega
    · rw [if_pos (show cmpPadded b.jsonPathOrder c.jsonPathOrder ≠ 0 by omega)] at hbc
      have h3 := cmpPadded_trans a.jsonPathOrder b.jsonPathOrder c.jsonPathOrder
        (by omega) (by omega)
      by_cases h4 : cmpPadded a.jsonPathOrder c.jsonPathOrder = 0
      · exact absurd (h3.2 h4).2 (by omega)
      · rw [if_pos (show cmpPadded a.jsonPathOrder c.jsonPathOrder ≠ 0 by omega)]
        have := h3.1
        omega
  · rw [if_pos (show cmpPadded a.jsonPathOrder b.jsonPathOrder ≠ 0 by omega)] at hab
    have hbcle : cmpPadded b.jsonPathOrder c.jsonPathOrder ≤ 0 := by
      by_cases h2 : cmpPadded b.jsonPathOrder c.jsonPathOrder = 0
      · omega
      · rw [if_pos (show cmpPadded b.jsonPathOrder c.jsonPathOrder ≠ 0 by omega)] at hbc
        omega
    have h3 := cmpPadded_trans a.jsonPathOrder b.jsonPathOrder c.jsonPathOrder
      (by omega) hbcle
    by_cases h4 : cmpPadded a.jsonPathOrder c.jsonPathOrder = 0
    · exact absurd (h3.2 h4).1 (by omega)
    · rw [if_pos (show cmpPadded a.jsonPathOrder c.jsonPathOrder ≠ 0 by omega)]
      have := h3.1
      omega

theorem compareExport_neg (a b : RawExport) :
    compareExport b a = -compareExport a b := by
  rw [compareExport_eq, compareExport_eq, cmpPadded_neg, charListCmp_neg]
  by_cases h1 : cmpPadded a.jsonPathOrder b.jsonPathOrder = 0
  · rw [if_neg (show ¬(-cmpPadded a.jsonPathOrder b.jsonPathOrder ≠ 0) by omega),
      if_neg (show ¬(cmpPadded a.jsonPathOrder b.jsonPathOrder ≠ 0) by omega)]
    by_cases h2 : segCount a - segCount b = 0
    · rw [if_neg (show ¬(segCount b - segCount a ≠ 0) by omega),
        if_neg (show ¬(segCount a - segCount b ≠ 0) by omega)]
    · rw [if_pos (show segCount b - segCount a ≠ 0 by omega),
        if_pos (show segCount a - segCount b ≠ 0 by omega)]
      omega
  · rw [if_pos (show ¬(-cmpPadded a.jsonPathOrder b.jsonPathOrder = 0) by omega),
      if_pos (show cmpPadded a.jsonPathOrder b.jsonPathOrder ≠ 0 by omega)]

theorem compareExportLe_trans (a b c : RawExport)
    (hab : compareExportLe a b = true) (hbc : compareExportLe b c = true) :
    compareExportLe a c = true := by
  unfold compareExportLe at hab hbc ⊢
  rw [decide_eq_true_eq] at hab hbc ⊢
  exact compareExport_trans hab hbc

theorem compareExportLe_total (a b : RawExport) :
    (compareExportLe a b || compareExportLe b a) = true := by
  unfold compareExportLe
  rw [Bool.or_eq_true, decide_eq_true_eq, decide_eq_true_eq, compareExport_neg]
  omega

theorem sortExports_sorted (l : List RawExport) :
    (sortExports l).Pairwise (fun a b => compareExportLe a b = true) :=
  List.sorted_mergeSort compareExportLe_trans compareExportLe_total l

theorem sortExports_idem (l : List RawExport) :
    sortExports (sortExports l) = sortExports l :=
  List.mergeSort_of_sorted (sortExports_sorted l)

/-! ## Wildcard replacement recovery -/

theorem findWildcardReplacements_roundtrip {parts : List String}
    {filePaths : List String} {r : String}
    (h : r ∈ findWildcardReplacements parts filePaths) :
    ∃ f ∈ filePaths, joinSep r parts = f := by
  unfold findWildcardReplacements at h
  match parts with
  | [] => simp at h
  | [x] => simp at h
  | first :: second :: rest =>
    rw [List.mem_filterMap] at h
    obtain ⟨fp, hfp, hfind⟩ := h
    have := List.find?_some hfind
    rw [beq_iff_eq] at this
    exact ⟨fp, hfp, this⟩

theorem findWildcardReplacements_nodup {parts : List String}
    {filePaths : List String} (h : filePaths.Nodup) :
    (findWildcardReplacements parts filePaths).Nodup := by
  unfold findWildcardReplacements
  match parts with
  | [] => simp
  | [x] => simp
  | first :: second :: rest =>
    refine List.Nodup.filterMap ?_ h
    intro fp fp2 r hr hr2
    have e1 := List.find?_some hr
    have e2 := List.find?_some hr2
    rw [beq_iff_eq] at e1 e2
    rw [← e1, ← e2]

/-- The entry built for one wildcard substitution (`addDynamic` calling
`addResolved` with `definitelyExists` and without `explicitlyDefined`). -/
def dynEntry (env : Env) (info : Info) (p q : String) (parts : List String)
    (r : String) : RawExport :=
  { conditions := info.conditions, exists_ := true,
    filePath := joinSep r parts, globbed := true,
    jsonPath := info.path, jsonPathOrder := info.pathOrder,
    specifier := p ++ r ++ q,
    url := env.urlResolve (joinSep r parts) }

theorem addResolved_dyn_exports (env : Env) (info : Info) (p q : String)
    (parts : List String) (r : String) (acc : State) :
    (addResolved env info true false (p ++ r ++ q) (some (joinSep r parts))
      acc).exports = acc.exports ++ [dynEntry env info p q parts r] := by
  unfold addResolved
  dsimp only
  rw [if_pos (by simp)]
  simp [dynEntry]

theorem foldl_addResolved_dyn_exports (env : Env) (info : Info)
    (p q : String) (parts : List String) :
    ∀ (l : List String) (acc : State),
    (l.foldl (fun acc r =>
      addResolved env info true false (p ++ r ++ q) (some (joinSep r parts))
        acc) acc).exports =
    acc.exports ++ l.map (dynEntry env info p q parts) := by
  intro l
  induction l with
  | nil => intro acc; simp
  | cons r rest ih =>
    intro acc
    rw [List.foldl_cons, ih, addResolved_dyn_exports]
    simp

/-! ## The negation match predicate -/

theorem strIndexOfChar_of_not_contains {s : String} {c : Char}
    (h : strContainsChar s c = false) : strIndexOfChar s c = none := by
  unfold strContainsChar at h
  unfold strIndexOfChar
  rw [List.findIdx?_eq_none_iff]
  intro x hx
  rw [decide_eq_false_iff_not]
  intro he
  subst he
  have := List.elem_iff.mpr hx
  rw [show (s.toList.contains x) = s.toList.elem x from rfl, this] at h
  exact absurd h (by simp)

theorem arrayEquivalent_iff_of_nodup {l r : List String}
    (hl : l.Nodup) (hr : r.Nodup) :
    arrayEquivalent l r = true ↔ ∀ x, x ∈ l ↔ x ∈ r := by
  unfold arrayEquivalent
  rw [Bool.and_eq_true, beq_iff_eq, List.all_eq_true]
  constructor
  · rintro ⟨hlen, hsub⟩
    have hsub2 : l.toFinset ⊆ r.toFinset := by
      intro x hx
      rw [List.mem_toFinset] at hx ⊢
      simpa using hsub x hx
    have hcard : r.toFinset.card ≤ l.toFinset.card := by
      rw [List.toFinset_card_of_nodup hl, List.toFinset_card_of_nodup hr]
      omega
    have := Finset.eq_of_subset_of_card_le hsub2 hcard
    intro x
    rw [← List.mem_toFinset, ← List.mem_toFinset (l := r), this]
  · intro hiff
    constructor
    · have : l.toFinset = r.toFinset := by
        ext x
        rw [List.mem_toFinset, List.mem_toFinset]
        exact hiff x
      rw [← List.toFinset_card_of_nodup hl, ← List.toFinset_card_of_nodup hr,
        this]
    · intro x hx
      simpa using (hiff x).mp hx

/-! ## Counting diagnostics -/

theorem countMsgsAt_append (m1 m2 : List Msg) (r : String) (p : List Seg) :
    countMsgsAt (m1 ++ m2) r p = countMsgsAt m1 r p + countMsgsAt m2 r p := by
  unfold countMsgsAt
  rw [List.filter_append, List.length_append]

theorem countMsgsAt_single (m : Msg) (r : String) (p : List Seg) :
    countMsgsAt [m] r p = if m.ruleId = r ∧ m.jsonPath = p then 1 else 0 := by
  unfold countMsgsAt
  by_cases h : m.ruleId = r ∧ m.jsonPath = p
  · rw [if_pos h]
    simp [h.1, h.2]
  · rw [if_neg h]
    rw [Decidable.not_and_iff_or_not] at h
    rcases h with h | h <;> simp [h]

theorem countMsgsAt_push (st : State) (m : Msg) (r : String) (p : List Seg) :
    countMsgsAt (pushMessage st m).messages r p =
      countMsgsAt st.messages r p +
        (if m.ruleId = r ∧ m.jsonPath = p then 1 else 0) := by
  unfold pushMessage
  rw [countMsgsAt_append, countMsgsAt_single]

theorem countMsgsAt_strict {base : List Seg} {st st2 : State}
    (h : MsgsFromStrict base st st2) (r : String) :
    countMsgsAt st2.messages r base = countMsgsAt st.messages r base := by
  obtain ⟨d, e, hp⟩ := h
  rw [e, countMsgsAt_append]
  have : countMsgsAt d r base = 0 := by
    unfold countMsgsAt
    rw [List.length_eq_zero, List.filter_eq_nil_iff]
    intro m hm
    have hlen := (hp m hm).1.1
    rw [Bool.and_eq_true, beq_iff_eq, beq_iff_eq]
    rintro ⟨_, hpath⟩
    rw [hpath] at hlen
    omega
  omega

theorem countMsgsAt_types_strict {base : List Seg} {st st2 : State}
    (h : MsgsFromStrict base st st2) :
    countMsgsAt st2.messages "exports-types-verbose" (base ++ [Seg.key "types"]) =
      countMsgsAt st.messages "exports-types-verbose" (base ++ [Seg.key "types"]) := by
  obtain ⟨d, e, hp⟩ := h
  rw [e, countMsgsAt_append]
  have : countMsgsAt d "exports-types-verbose" (base ++ [Seg.key "types"]) = 0 := by
    unfold countMsgsAt
    rw [List.length_eq_zero, List.filter_eq_nil_iff]
    intro m hm
    rw [Bool.and_eq_true, beq_iff_eq, beq_iff_eq]
    rintro ⟨hrule, hpath⟩
    have hlen := (hp m hm).2 hrule
    rw [hpath, List.length_append] at hlen
    simp at hlen
  omega

theorem countMsgsAt_child {base ext : List Seg} {st st2 : State}
    (hext : ext ≠ []) (h : MsgsFrom (base ++ ext) st st2) (r : String) :
    countMsgsAt st2.messages r base = countMsgsAt st.messages r base :=
  countMsgsAt_strict (msgsFrom_child_strict hext h) r

/-- In the fixed table, the only exhaustive group is `import`/`require`. -/
theorem exhaustive_iff (keys : List String) :
    (mutuallyExclusiveConditions.any (fun exclusive =>
      exclusive.exhaustive &&
        exclusive.conditions.all (fun d => keys.contains d)))
      = (keys.contains "import" && keys.contains "require") := by
  simp [mutuallyExclusiveConditions]

theorem jsonLookup_contains {fields : List (String × Json)} {key : String}
    {v : Json} (h : jsonLookup fields key = some v) :
    (fields.map Prod.fst).contains key = true := by
  unfold jsonLookup at h
  rcases hf : fields.find? (fun f => f.fst == key) with _ | f
  · rw [hf] at h
    simp at h
  · have hmem := List.mem_of_find?_eq_some hf
    have hkey := List.find?_some hf
    rw [beq_iff_eq] at hkey
    have hin : key ∈ fields.map Prod.fst := by
      rw [← hkey]
      exact List.mem_map_of_mem _ hmem
    exact List.elem_iff.mpr hin

/-! ## Splitting and joining around a separator -/

theorem splitChars_ne_nil (sep : Char) : ∀ l : List Char, splitChars sep l ≠ [] := by
  intro l
  induction l with
  | nil => simp [splitChars]
  | cons c rest ih =>
    simp only [splitChars]
    split
    · simp
    · rcases h : splitChars sep rest with _ | ⟨h0, t⟩
      · simp
      · simp

theorem splitChars_append_sep (sep : Char) :
    ∀ (xs ys : List Char),
    splitChars sep (xs ++ sep :: ys) = splitChars sep xs ++ splitChars sep ys := by
  intro xs ys
  induction xs with
  | nil => simp [splitChars]
  | cons c xs2 ih =>
    simp only [List.cons_append, splitChars]
    by_cases hc : c = sep
    · rw [if_pos hc, if_pos hc]
      simp only [List.append_eq]
      rw [ih]
      simp
    · rw [if_neg hc, if_neg hc]
      simp only [List.append_eq]
      rw [ih]
      rcases h : splitChars sep xs2 with _ | ⟨h0, t⟩
      · exact absurd h (splitChars_ne_nil sep xs2)
      · simp

/-- Character-level join with a list separator, the `toList` image of
`joinSep`. -/
def charJoin (sep : List Char) : List (List Char) → List Char
  | [] => []
  | [x] => x
  | x :: y :: rest => x ++ sep ++ charJoin sep (y :: rest)

theorem joinSep_toList (sep : String) :
    ∀ parts : List String,
    (joinSep sep parts).toList = charJoin sep.toList (parts.map String.toList) := by
  intro parts
  match parts with
  | [] => rfl
  | [x] => rfl
  | x :: y :: rest =>
    show ((x ++ sep ++ joinSep sep (y :: rest))).toList = _
    rw [show ∀ a b : String, (a ++ b).toList = a.toList ++ b.toList from
      fun a b => String.data_append a b]
    rw [show ∀ a b : String, (a ++ b).toList = a.toList ++ b.toList from
      fun a b => String.data_append a b]
    rw [joinSep_toList sep (y :: rest)]
    rfl

theorem charJoin_splitChars (sep : Char) :
    ∀ l : List Char, charJoin [sep] (splitChars sep l) = l := by
  intro l
  induction l with
  | nil => rfl
  | cons c rest ih =>
    simp only [splitChars]
    obtain ⟨h0, t, hr⟩ : ∃ h0 t, splitChars sep rest = h0 :: t := by
      rcases hsp : splitChars sep rest with _ | ⟨a, b⟩
      · exact absurd hsp (splitChars_ne_nil sep rest)
      · exact ⟨a, b, rfl⟩
    by_cases hc : c = sep
    · rw [if_pos hc, hr]
      show [] ++ [sep] ++ charJoin [sep] (h0 :: t) = c :: rest
      rw [← hr, ih, hc]
      rfl
    · rw [if_neg hc, hr]
      cases t with
      | nil =>
        show c :: h0 = c :: rest
        rw [← ih, hr]
        rfl
      | cons t0 t2 =>
        show (c :: h0) ++ [sep] ++ charJoin [sep] (t0 :: t2) = c :: rest
        rw [← ih, hr]
        rfl

theorem string_ext {a b : String} (h : a.toList = b.toList) : a = b := by
  cases a
  cases b
  exact congrArg String.mk h

theorem joinSep_jsSplitChar (s : String) :
    joinSep "." (jsSplitChar '.' s) = s := by
  refine string_ext ?_
  rw [joinSep_toList]
  unfold jsSplitChar
  rw [List.map_map]
  have : (List.asString · |>.toList) = (id : List Char → List Char) := by
    funext l
    exact List.toList_asString l
  rw [show String.toList ∘ List.asString = id from funext fun l => List.toList_asString l]
  rw [List.map_id]
  exact charJoin_splitChars '.' s.toList

theorem jsSplitChar_ne_nil (sep : Char) (s : String) :
    jsSplitChar sep s ≠ [] := by
  unfold jsSplitChar
  intro h
  exact splitChars_ne_nil sep s.toList (List.map_eq_nil_iff.mp h)

theorem joinSep_append (sep : String) :
    ∀ (xs ys : List String), xs ≠ [] → ys ≠ [] →
    joinSep sep (xs ++ ys) = joinSep sep xs ++ sep ++ joinSep sep ys := by
  intro xs
  induction xs with
  | nil => intro ys h _; exact absurd rfl h
  | cons x xs2 ih =>
    intro ys _ hys
    cases xs2 with
    | nil =>
      cases ys with
      | nil => exact absurd rfl hys
      | cons y ys2 => rfl
    | cons x2 xs3 =>
      show joinSep sep (x :: (x2 :: xs3 ++ ys)) = _
      rw [show joinSep sep (x :: (x2 :: xs3 ++ ys)) =
        x ++ sep ++ joinSep sep (x2 :: xs3 ++ ys) from rfl]
      rw [ih ys (by simp) hys]
      simp [joinSep, String.append_assoc]

/-! ## Routing an object value to the conditions branch -/

theorem resolveExports_succ (env : Env) (fuel : Nat) (info : Info) (v : Json)
    (st : State) :
    resolveExports env (fuel + 1) info v st =
      match v with
      | .arr items => resolveExportsList (resolveExports env fuel) info items st
      | .obj fields => resolveExportsObject (resolveExports env fuel) info fields st
      | other => addValue env info other st := rfl

theorem resolveExports_obj_conditions (env : Env) (fuel : Nat) (info : Info)
    (fields : List (String × Json)) (st : State)
    (hne : fields ≠ [])
    (hdots : ∀ k ∈ fields.map Prod.fst, strStartsWith k "." = false) :
    resolveExports env (fuel + 1) info (.obj fields) st =
      resolveExportsConditions (resolveExports env fuel) info fields st := by
  rw [resolveExports_succ]
  cases fields with
  | nil => exact absurd rfl hne
  | cons f fs =>
    unfold resolveExportsObject
    simp only [List.map_cons]
    have hd0 : strStartsWith f.fst "." = false := hdots _ (by simp)
    split
    · next hmix =>
      exfalso
      rw [List.any_eq_true] at hmix
      obtain ⟨k, hk, hdec⟩ := hmix
      rw [decide_eq_true_eq] at hdec
      exact hdec (by rw [hd0, hdots k (by simp [hk])])
    · split
      · next hns =>
        exfalso
        rw [Bool.and_eq_true, hd0] at hns
        exact absurd hns.1 (by simp)
      · split
        · next hdots2 =>
          exfalso
          rw [hd0] at hdots2
          exact absurd hdots2 (by simp)
        · rfl

/-- The `default`-handling phase, counted: with no `default` key, exactly
one `exports-conditions-default-missing` is emitted unless `import` and
`require` are both present. -/
theorem conditionsFinale_count_dm (info : Info) (keys : List String)
    (st : State) (hdef : keys.contains "default" = false) :
    countMsgsAt (conditionsFinale info keys st).messages
      "exports-conditions-default-missing" info.path =
    countMsgsAt st.messages "exports-conditions-default-missing" info.path +
      (if keys.contains "import" && keys.contains "require" then 0 else 1) := by
  unfold conditionsFinale
  dsimp only
  rw [if_neg (by rw [hdef]; simp), exhaustive_iff]
  by_cases he : (keys.contains "import" && keys.contains "require") = true
  · rw [if_pos he, if_pos he]
    omega
  · rw [if_neg he, if_neg (by simpa using he), countMsgsAt_push]
    rw [if_pos ⟨rfl, rfl⟩]

theorem conditionsFinale_count_other (info : Info) (keys : List String)
    (st : State) (r : String) (p : List Seg)
    (h1 : r ≠ "exports-conditions-default-missing")
    (h2 : r ≠ "exports-conditions-default-misplaced") :
    countMsgsAt (conditionsFinale info keys st).messages r p =
      countMsgsAt st.messages r p := by
  unfold conditionsFinale
  dsimp only
  repeat' split
  all_goals (try rw [countMsgsAt_push])
  all_goals simp [mkMsg, defaultMissingMsg, Ne.symm h1, Ne.symm h2]

theorem conditionsPrelude_count_other (info : Info)
    (fields : List (String × Json)) (st : State) (r : String) (p : List Seg)
    (h1 : r ≠ "exports-conditions-verbose")
    (h2 : r ≠ "exports-types-verbose") :
    countMsgsAt (conditionsPrelude info fields st).messages r p =
      countMsgsAt st.messages r p := by
  unfold conditionsPrelude
  dsimp only
  repeat' split
  all_goals (try rw [countMsgsAt_push])
  all_goals (try rw [countMsgsAt_push])
  all_goals simp [mkMsg, typesVerboseMsg, Ne.symm h1, Ne.symm h2]

/-- The prelude-count helper, abstracting over the verbose-pass state. -/
theorem conditionsPrelude_count_tv_aux (info : Info) (st st1 : State) (hit : Bool)
    (hbase : countMsgsAt st1.messages "exports-types-verbose"
      (info.path ++ [Seg.key "types"]) =
      countMsgsAt st.messages "exports-types-verbose"
        (info.path ++ [Seg.key "types"])) :
    countMsgsAt (if hit = true then
        pushMessage st1 (typesVerboseMsg info.path) else st1).messages
      "exports-types-verbose" (info.path ++ [Seg.key "types"]) =
    countMsgsAt st.messages "exports-types-verbose"
      (info.path ++ [Seg.key "types"]) + (if hit then 1 else 0) := by
  cases hit with
  | false => simpa using hbase
  | true =>
    rw [if_pos rfl, countMsgsAt_push, hbase, if_pos ⟨rfl, rfl⟩]
    rfl

theorem conditionsPrelude_count_tv (info : Info)
    (fields : List (String × Json)) (st : State) {d t : String}
    (hd : jsonLookup fields "default" = some (.str d))
    (ht : jsonLookup fields "types" = some (.str t)) :
    countMsgsAt (conditionsPrelude info fields st).messages
      "exports-types-verbose" (info.path ++ [Seg.key "types"]) =
    countMsgsAt st.messages "exports-types-verbose"
      (info.path ++ [Seg.key "types"]) +
      (if typesVerboseHit d t then 1 else 0) := by
  unfold conditionsPrelude
  rw [hd, ht]
  dsimp only
  rw [jsonLookup_contains hd, jsonLookup_contains ht]
  simp only [Bool.true_and]
  refine conditionsPrelude_count_tv_aux info st _ _ ?_
  split
  · rw [countMsgsAt_push]
    simp [mkMsg]
  · rfl

/-! ## The mutual-exclusion messages, characterised -/

theorem firstConflict_eq_find (g : List String) :
    ∀ l : List String, firstConflict g l = l.find? (fun o => g.contains o) := by
  intro l
  induction l with
  | nil => rfl
  | cons o rest ih =>
    unfold firstConflict
    rw [List.find?_cons]
    split
    · next h => rw [h]
    · next h =>
      rw [Bool.not_eq_true] at h
      rw [h]
      exact ih

theorem mutexMessagesFor_none (condition : String) (path : List Seg) :
    mutexMessagesFor condition none path = [] := by
  unfold mutexMessagesFor
  induction mutuallyExclusiveConditions <;> simp [*]

theorem mutexMessages_flatten_spec (condition : String) (cs : List String)
    (path : List Seg) :
    ∀ groups : List MutuallyExclusiveInfo,
    ((groups.map (fun exclusive =>
      if exclusive.conditions.contains condition then
        match firstConflict exclusive.conditions cs with
        | some other => [mutexMsg condition other path]
        | none => []
      else ([] : List Msg))).flatten).length =
    (groups.filter (fun exclusive =>
      exclusive.conditions.contains condition &&
        cs.any (fun o => exclusive.conditions.contains o))).length := by
  intro groups
  induction groups with
  | nil => rfl
  | cons ex gs ih =>
    simp only [List.map_cons, List.flatten_cons, List.length_append, ih,
      List.filter_cons]
    cases hc : ex.conditions.contains condition with
    | false => simp [hc]
    | true =>
      rcases hfc : firstConflict ex.conditions cs with _ | other
      · have hany : cs.any (fun o => ex.conditions.contains o) = false := by
          rw [firstConflict_eq_find] at hfc
          rw [List.any_eq_false]
          intro o ho
          exact List.find?_eq_none.mp hfc o ho
        rw [if_pos (show (true = true) by rfl), if_neg (show ¬((true && cs.any fun o => ex.conditions.contains o) = true) by rw [hany]; decide)]
        simp only [List.length_nil]
        omega
      · have hany : cs.any (fun o => ex.conditions.contains o) = true := by
          rw [firstConflict_eq_find] at hfc
          rw [List.any_eq_true]
          exact ⟨other, List.mem_of_find?_eq_some hfc, List.find?_some hfc⟩
        rw [if_pos (show (true = true) by rfl), if_pos (show (true && cs.any fun o => ex.conditions.contains o) = true by rw [hany]; decide)]
        simp only [List.length_cons, List.length_nil]
        omega

/-- Every entry of the final state has a specifier starting with `.`. -/
theorem packageExportsState_dotted (env : Env) (inp : PkgInput) :
    ∀ e ∈ (packageExportsState env inp).exports,
    strStartsWith e.specifier "." = true := by
  intro e he
  unfold packageExportsState at he
  dsimp only at he
  rw [sortExports, List.mem_mergeSort] at he
  exact (npmIgnoredPass_dotted (exportsOrMainStage_dotted
    (preambleChecks_dotted (initialState_dotted inp)))).1 e he

/-! ## Further helper lemmas for the claims -/

/-- A message of the list with the right rule and anchor makes the count
positive. -/
theorem countMsgsAt_pos {msgs : List Msg} {m : Msg} {r : String} {p : List Seg}
    (hm : m ∈ msgs) (hr : m.ruleId = r) (hp : m.jsonPath = p) :
    1 ≤ countMsgsAt msgs r p := by
  unfold countMsgsAt
  have hmem : m ∈ msgs.filter (fun m2 => m2.ruleId == r && m2.jsonPath == p) :=
    List.mem_filter.mpr ⟨hm, by rw [hr, hp]; simp⟩
  have hpos := List.length_pos.mpr (List.ne_nil_of_mem hmem)
  omega

/-- Every mutual-exclusion message for a key comes from a group of the table
containing the key, and names the first active condition of that group. -/
theorem mutexMessagesFor_some_mem {condition : String} {cs : List String}
    {path : List Seg} {m : Msg}
    (h : m ∈ mutexMessagesFor condition (some cs) path) :
    ∃ g ∈ mutuallyExclusiveConditions, g.conditions.contains condition = true ∧
      ∃ other, cs.find? (fun o => g.conditions.contains o) = some other ∧
        m = mutexMsg condition other path := by
  unfold mutexMessagesFor at h
  rw [List.mem_flatten] at h
  obtain ⟨l, hl, hm⟩ := h
  rw [List.mem_map] at hl
  obtain ⟨g, hg, rfl⟩ := hl
  simp only at hm
  split at hm
  · next hc =>
    rcases hfc : firstConflict g.conditions cs with _ | other <;> rw [hfc] at hm
    · simp at hm
    · simp only [List.mem_singleton] at hm
      refine ⟨g, hg, hc, other, ?_, hm⟩
      rw [← firstConflict_eq_find]
      exact hfc
  · simp at hm

/-- Splitting on `.` after appending a dot and a dot-free piece appends one
part. -/
theorem jsSplitChar_append_single (base ext : String)
    (hsplit : splitChars '.' ext.toList = [ext.toList]) :
    jsSplitChar '.' (base ++ "." ++ ext) = jsSplitChar '.' base ++ [ext] := by
  unfold jsSplitChar
  have hl : (base ++ "." ++ ext).toList = base.toList ++ '.' :: ext.toList := by
    show ((base ++ ".") ++ ext).data = base.data ++ '.' :: ext.data
    rw [String.data_append, String.data_append, List.append_assoc]
    rfl
  rw [hl, splitChars_append_sep, hsplit, List.map_append]
  rw [show List.map List.asString [ext.toList] = [ext] from by
    rw [List.map_cons, List.map_nil, String.asString_toList]]

/-- The `types`-redundancy test on a path with a recognised extension: it
holds exactly when `types` is the path with `ext` replaced by `d.<tExt>`. -/
theorem typesVerboseHit_ext (base ext tExt t : String)
    (hsplit : splitChars '.' ext.toList = [ext.toList])
    (hok : (ext = "js" || ext = "cjs" || ext = "mjs") = true)
    (hrep : replaceFirstChar 'j' 't' ext = tExt) :
    typesVerboseHit (base ++ "." ++ ext) t =
      decide (t = base ++ "." ++ "d" ++ "." ++ tExt) := by
  unfold typesVerboseHit
  rw [jsSplitChar_append_single base ext hsplit]
  dsimp only
  rw [List.getLast?_concat, List.dropLast_concat]
  simp only [Option.getD_some]
  rw [hok, Bool.true_and]
  have hXY : joinSep "." (jsSplitChar '.' base ++ ["d", replaceFirstChar 'j' 't' ext]) =
      base ++ "." ++ "d" ++ "." ++ tExt := by
    rw [hrep, joinSep_append "." (jsSplitChar '.' base) ["d", tExt]
      (jsSplitChar_ne_nil '.' base) (by simp), joinSep_jsSplitChar]
    rw [show joinSep "." ["d", tExt] = "d" ++ "." ++ tExt from rfl]
    rw [← String.append_assoc, ← String.append_assoc]
  simp only [hXY]

/-- The `.js` instance of the `types`-redundancy test. -/
theorem typesVerboseHit_js (base t : String) :
    typesVerboseHit (base ++ ".js") t = decide (t = base ++ ".d.ts") := by
  have h := typesVerboseHit_ext base "js" "ts" t (by decide) (by decide) (by decide)
  rw [show (base ++ ".js") = base ++ "." ++ "js" from
    (show base ++ "." ++ "js" = base ++ ".js" from String.append_assoc base "." "js").symm]
  rw [show (base ++ ".d.ts" : String) = base ++ "." ++ "d" ++ "." ++ "ts" from
    (show base ++ "." ++ "d" ++ "." ++ "ts" = base ++ ".d.ts" from by
      rw [String.append_assoc, String.append_assoc, String.append_assoc]
      rfl).symm]
  exact h

/-- The `.cjs` instance of the `types`-redundancy test. -/
theorem typesVerboseHit_cjs (base t : String) :
    typesVerboseHit (base ++ ".cjs") t = decide (t = base ++ ".d.cts") := by
  have h := typesVerboseHit_ext base "cjs" "cts" t (by decide) (by decide) (by decide)
  rw [show (base ++ ".cjs") = base ++ "." ++ "cjs" from
    (show base ++ "." ++ "cjs" = base ++ ".cjs" from String.append_assoc base "." "cjs").symm]
  rw [show (base ++ ".d.cts" : String) = base ++ "." ++ "d" ++ "." ++ "cts" from
    (show base ++ "." ++ "d" ++ "." ++ "cts" = base ++ ".d.cts" from by
      rw [String.append_assoc, String.append_assoc, String.append_assoc]
      rfl).symm]
  exact h

/-- The `.mjs` instance of the `types`-redundancy test. -/
theorem typesVerboseHit_mjs (base t : String) :
    typesVerboseHit (base ++ ".mjs") t = decide (t = base ++ ".d.mts") := by
  have h := typesVerboseHit_ext base "mjs" "mts" t (by decide) (by decide) (by decide)
  rw [show (base ++ ".mjs") = base ++ "." ++ "mjs" from
    (show base ++ "." ++ "mjs" = base ++ ".mjs" from String.append_assoc base "." "mjs").symm]
  rw [show (base ++ ".d.mts" : String) = base ++ "." ++ "d" ++ "." ++ "mts" from
    (show base ++ "." ++ "d" ++ "." ++ "mts" = base ++ ".d.mts" from by
      rw [String.append_assoc, String.append_assoc, String.append_assoc]
      rfl).symm]
  exact h

/-! ## Spec-modelled comparison definitions

The two definitions below are NOT translated from the source: they follow
the words of the specification, to be compared with the source-derived
definitions (`arrayEquivalent` inside `negMatches`, and `compareExport`). -/

/-- Spec-modelled: order-independent set-equivalence of two optional
condition lists, both absent counting as equal (spec section 4.6). -/
def setEquivalentConditions : Option (List String) → Option (List String) → Bool
  | none, none => true
  | some l, some r =>
    l.all (fun x => r.contains x) && r.all (fun x => l.contains x)
  | _, _ => false

/-- Spec-modelled: pathOrder comparison where a strict prefix sorts before
its extensions (the shorter-prefix-wins reading of spec section 4.8), unlike
the source comparator, which reads missing positions as `0`. -/
def cmpPrefixWins : List Nat → List Nat → Int
  | [], [] => 0
  | [], _ :: _ => -1
  | _ :: _, [] => 1
  | x :: l, y :: r => if x ≠ y then (x : Int) - (y : Int) else cmpPrefixWins l r

/-- Spec-modelled: the spec section 4.8 comparator, `cmpPrefixWins` on the
path orders with the same tie-breaks as the source. -/
def specCompareExport (left right : RawExport) : Int :=
  let c := cmpPrefixWins left.jsonPathOrder right.jsonPathOrder
  if c ≠ 0 then c
  else
    let segs : Int := (jsSplitChar '/' left.specifier).length -
      (jsSplitChar '/' right.specifier).length
    if segs ≠ 0 then segs
    else charListCmp left.specifier.toList right.specifier.toList

/-! ## Concrete fixtures for the claim witnesses and counterexamples -/

/-- An environment whose filesystem probe always succeeds. -/
def envAllFs : Env :=
  { mmMatch := fun _ _ => false, urlResolve := fun s => s,
    fsAccess := fun _ => true }

/-- An environment whose filesystem probe always fails. -/
def envNoFs : Env :=
  { mmMatch := fun _ _ => false, urlResolve := fun s => s,
    fsAccess := fun _ => false }

/-- An environment whose glob matcher accepts `./src/*.js`. -/
def envGlob : Env :=
  { mmMatch := fun _ f => strStartsWith f "./src/" && strEndsWith f ".js",
    urlResolve := fun s => s, fsAccess := fun _ => true }

/-- The `Info` with which the walk of an `exports` field starts. -/
def rootInfo : Info :=
  { conditions := none, path := [Seg.key "exports"], pathOrder := [0],
    specifier := none }

/-- An empty starting state. -/
def stEmpty : State :=
  { exports := [], negatedExports := [], messages := [], packagedFiles := [] }

/-- A recursion stub that returns the state unchanged. -/
def idRecur : Recur := fun _ _ st => st

/-- A package whose export map points at a file that is neither packaged nor
on disk. -/
def inpC1 : PkgInput :=
  { pkg := [("name", .str "x"), ("type", .str "commonjs"), ("files", .arr []),
      ("exports", .str "./a.js")],
    packedFilesRaw := [] }

/-- A package whose export map points at a file on disk but not packaged. -/
def inpC1w : PkgInput :=
  { pkg := [("name", .str "x"), ("type", .str "commonjs"), ("files", .arr []),
      ("exports", .str "./a.js")],
    packedFilesRaw := ["b.js"] }

/-- A package whose export map points at its one packaged file. -/
def inpDotStr : PkgInput :=
  { pkg := [("name", .str "x"), ("type", .str "commonjs"), ("files", .arr []),
      ("exports", .str "./a.js")],
    packedFilesRaw := ["a.js"] }

/-- A package with a dynamic specifier pointing at a static file. -/
def inpStarUseless : PkgInput :=
  { pkg := [("name", .str "x"), ("type", .str "commonjs"), ("files", .arr []),
      ("exports", .obj [("./a*", .str "./b.js")])],
    packedFilesRaw := ["b.js"] }

/-- A package with a specifier key starting with `.` but not `./`. -/
def inpDotFoo : PkgInput :=
  { pkg := [("name", .str "x"), ("type", .str "commonjs"), ("files", .arr []),
      ("exports", .obj [(".foo", .str "./b.js")])],
    packedFilesRaw := ["b.js"] }

/-- An export map with a duplicated `import` condition and a negation under
`import`/`node`. -/
def exportsValC4 : Json :=
  .obj [(".", .obj [("import",
    .obj [("import", .str "./a.js"), ("node", .null)])])]

/-- The package carrying `exportsValC4`. -/
def inpC4 : PkgInput :=
  { pkg := [("name", .str "x"), ("type", .str "commonjs"), ("files", .arr []),
      ("exports", exportsValC4)],
    packedFilesRaw := ["a.js"] }

/-- A package nesting `node` below active `node-addons` and `browser`. -/
def inpC5 : PkgInput :=
  { pkg := [("name", .str "x"), ("type", .str "commonjs"), ("files", .arr []),
      ("exports", .obj [("node-addons",
        .obj [("browser", .obj [("node", .str "./a.js")])])])],
    packedFilesRaw := ["a.js"] }

/-- A package with a legacy `main` field and two packaged files, so the main
entry gets path order `[0]` and the fallback entries get `[]`. -/
def inpC7 : PkgInput :=
  { pkg := [("name", .str "x"), ("type", .str "commonjs"), ("files", .arr []),
      ("main", .str "a.js")],
    packedFilesRaw := ["a.js", "z.js"] }

/-- The entry produced for a string export map `"./a.js"`. -/
def entryDotMain : RawExport :=
  { conditions := none, exists_ := true, filePath := "./a.js",
    globbed := false, jsonPath := [Seg.key "exports"], jsonPathOrder := [0],
    specifier := ".", url := "./a.js" }

/-- The resolved `main` entry of `inpC7`. -/
def cxMain : RawExport :=
  { conditions := none, exists_ := true, filePath := "./a.js",
    globbed := false, jsonPath := [Seg.key "main"], jsonPathOrder := [0],
    specifier := ".", url := "./a.js" }

/-- The packaged-file fallback entry for `./a.js` of `inpC7`. -/
def cxA : RawExport :=
  { conditions := none, exists_ := true, filePath := "./a.js",
    globbed := true, jsonPath := [], jsonPathOrder := [],
    specifier := "./a.js", url := "./a.js" }

/-- The packaged-file fallback entry for `./z.js` of `inpC7`. -/
def cxZ : RawExport :=
  { conditions := none, exists_ := true, filePath := "./z.js",
    globbed := true, jsonPath := [], jsonPathOrder := [],
    specifier := "./z.js", url := "./z.js" }

/-- The state with one packaged file under `./src/` for the wildcard
witness. -/
def st3w : State :=
  { exports := [], negatedExports := [], messages := [],
    packagedFiles := ["./src/a.js"] }

/-- The `conditions` object with a sole `import` key. -/
def fieldsC6 : List (String × Json) := [("import", Json.str "./a.js")]

/-- The `conditions` object with redundant `types` next to `default`. -/
def fieldsC9 : List (String × Json) :=
  [("default", Json.str "./dist/a.js"), ("types", Json.str "./dist/a.d.ts")]



/-! ## The claims -/

/-- C1 (counterexample): with `exports: "./a.js"`, an empty pack list and a
failing filesystem probe, the one candidate entry has a file path outside
the shipped set and a failed existence check, yet the run emits neither an
`exports-npm-ignored` nor an `npm-ignored` diagnostic: the packaging check
skips entries whose existence check failed, and the rule id is
`npm-ignored`. -/
theorem c1_counterexample :
    ((exportsOrMainStage envNoFs inpC1 (preambleChecks inpC1 (initialState inpC1))).exports.map
        (fun e => (e.filePath, e.exists_, e.jsonPath)) =
      [("./a.js", false, [Seg.key "exports"])]) ∧
    (exportsOrMainStage envNoFs inpC1 (preambleChecks inpC1 (initialState inpC1))).packagedFiles.contains "./a.js" = false ∧
    countRule (packageExportsState envNoFs inpC1).messages "exports-npm-ignored" = 0 ∧
    countRule (packageExportsState envNoFs inpC1).messages "npm-ignored" = 0 ∧
    countRule (packageExportsState envNoFs inpC1).messages "exports-path-not-found" = 1 := by
  decide

/-- C1 (amended): every candidate entry remaining after the walk and
negation pass that is marked as existing and whose declared file path is
not in the shipped-file set gets an `npm-ignored` diagnostic anchored at
its JSON path. -/
theorem c1_amended (env : Env) (inp : PkgInput) (e : RawExport)
    (hmem : e ∈ (exportsOrMainStage env inp (preambleChecks inp (initialState inp))).exports)
    (hex : e.exists_ = true)
    (hnp : (exportsOrMainStage env inp (preambleChecks inp (initialState inp))).packagedFiles.contains e.filePath = false) :
    1 ≤ countMsgsAt (packageExportsState env inp).messages "npm-ignored" e.jsonPath := by
  have hmsgs : (packageExportsState env inp).messages =
      (npmIgnoredPass ((jsonLookup inp.pkg "files").isSome)
        (exportsOrMainStage env inp (preambleChecks inp (initialState inp)))).messages := rfl
  rw [hmsgs, npmIgnoredPass_spec]
  dsimp only
  exact countMsgsAt_pos (List.mem_append.mpr (Or.inr (List.mem_map_of_mem _
    (List.mem_filter.mpr ⟨hmem, by rw [hex, hnp]; rfl⟩)))) rfl rfl

/-- C1 (witness): an existing-but-unpackaged entry of a concrete run gets
`npm-ignored` at its path. -/
theorem c1_amended_witness :
    entryDotMain ∈ (exportsOrMainStage envAllFs inpC1w (preambleChecks inpC1w (initialState inpC1w))).exports ∧
    1 ≤ countMsgsAt (packageExportsState envAllFs inpC1w).messages "npm-ignored" entryDotMain.jsonPath :=
  ⟨by decide, c1_amended envAllFs inpC1w entryDotMain (by decide) rfl (by decide)⟩

/-- C2 (counterexample): the wildcard-useless case appends an entry whose
specifier keeps its `*`, and a `.foo` specifier key is walked as-is even
though it is neither `.` nor `./`-prefixed. -/
theorem c2_counterexample :
    ((exportsOrMainStage envAllFs inpStarUseless (preambleChecks inpStarUseless (initialState inpStarUseless))).exports.map
        (fun e => e.specifier) = ["./a*"]) ∧
    strContainsChar "./a*" '*' = true ∧
    ((exportsOrMainStage envAllFs inpDotFoo (preambleChecks inpDotFoo (initialState inpDotFoo))).exports.map
        (fun e => e.specifier) = [".foo"]) ∧
    strStartsWith ".foo" "./" = false ∧ (".foo" : String) ≠ "." := by
  decide

/-- C2 (amended): every candidate entry ever appended has a specifier
starting with `.`.  The walk only appends entries and only the negation
pass removes them, so the appended entries are exactly those of the walk
result: first conjunct, the walk preserves the dotted invariant from any
dotted state; second conjunct, the pre-negation state of the pipeline (the
walk of any `exports` value from the checked initial state, holding every
entry ever appended, including ones the negation pass later removes) has
only dotted specifiers; third conjunct, the final state inherits the
invariant. -/
theorem c2_amended (env : Env) (inp : PkgInput) :
    (∀ (fuel : Nat) (info : Info) (v : Json) (st : State),
      DottedState st → DottedOpt info.specifier →
      ∀ e ∈ (resolveExports env fuel info v st).exports,
        strStartsWith e.specifier "." = true) ∧
    (∀ (exportsValue : Json),
      ∀ e ∈ (resolveExports env (Json.fuel exportsValue + 1)
          ({ conditions := none, path := [Seg.key "exports"], pathOrder := [0], specifier := none } : Info)
          exportsValue (preambleChecks inp (initialState inp))).exports,
        strStartsWith e.specifier "." = true) ∧
    (∀ e ∈ (packageExportsState env inp).exports,
      strStartsWith e.specifier "." = true) := by
  refine ⟨?_, ?_, packageExportsState_dotted env inp⟩
  · intro fuel info v st h hs e he
    exact (resolveExports_dotted env fuel info v st h hs).1 e he
  · intro exportsValue e he
    exact (resolveExports_dotted env (Json.fuel exportsValue + 1)
      ({ conditions := none, path := [Seg.key "exports"], pathOrder := [0], specifier := none } : Info)
      exportsValue (preambleChecks inp (initialState inp))
      (preambleChecks_dotted (initialState_dotted inp)) (by trivial)).1 e he

/-- The entry appended during the walk of `exportsValC4` and later removed
by its negation. -/
def entryC4Appended : RawExport :=
  { conditions := some ["import", "import"], exists_ := true,
    filePath := "./a.js", globbed := false,
    jsonPath := [Seg.key "exports", Seg.key ".", Seg.key "import", Seg.key "import"],
    jsonPathOrder := [0, 0, 0, 0], specifier := ".", url := "./a.js" }

/-- C2 (witness): the specifier invariant on a concrete appended-then-negated
entry (the walk of `inpC4` appends it, the negation pass then removes it)
and on a concrete surviving final entry. -/
theorem c2_amended_witness :
    entryC4Appended ∈ (resolveExports envAllFs (Json.fuel exportsValC4 + 1)
        ({ conditions := none, path := [Seg.key "exports"], pathOrder := [0], specifier := none } : Info)
        exportsValC4 (preambleChecks inpC4 (initialState inpC4))).exports ∧
    strStartsWith entryC4Appended.specifier "." = true ∧
    entryDotMain ∈ (packageExportsState envAllFs inpDotStr).exports ∧
    strStartsWith entryDotMain.specifier "." = true :=
  have hm : entryC4Appended ∈ (resolveExports envAllFs (Json.fuel exportsValC4 + 1)
      ({ conditions := none, path := [Seg.key "exports"], pathOrder := [0], specifier := none } : Info)
      exportsValC4 (preambleChecks inpC4 (initialState inpC4))).exports := by decide
  have hm2 : entryDotMain ∈ (packageExportsState envAllFs inpDotStr).exports :=
    List.mem_mergeSort.mpr (by decide)
  ⟨hm, (c2_amended envAllFs inpC4).2.1 exportsValC4 entryC4Appended hm,
    hm2, (c2_amended envAllFs inpDotStr).2.2 entryDotMain hm2⟩

/-- C3 (confirmed): when the glob matches something, `addDynamic` appends
exactly one entry per recovered substitution, each marked existing and
globbed, with specifier `prefix ++ substitution ++ suffix`; re-joining a
substitution with the value pattern reproduces a matched shipped filename;
and the substitutions are pairwise distinct when the packaged files are. -/
theorem c3_roundtrip (env : Env) (info : Info) (p q first second : String)
    (rest : List String) (st : State)
    (hne : (st.packagedFiles.filter (env.mmMatch (first :: second :: rest))).isEmpty = false) :
    (addDynamic env info (p, q) (first :: second :: rest) st).exports =
      st.exports ++ (findWildcardReplacements (first :: second :: rest)
        (st.packagedFiles.filter (env.mmMatch (first :: second :: rest)))).map
          (dynEntry env info p q (first :: second :: rest)) ∧
    (∀ r ∈ findWildcardReplacements (first :: second :: rest)
        (st.packagedFiles.filter (env.mmMatch (first :: second :: rest))),
      joinSep r (first :: second :: rest) ∈
        st.packagedFiles.filter (env.mmMatch (first :: second :: rest)) ∧
      (dynEntry env info p q (first :: second :: rest) r).specifier = p ++ r ++ q ∧
      (dynEntry env info p q (first :: second :: rest) r).exists_ = true ∧
      (dynEntry env info p q (first :: second :: rest) r).globbed = true ∧
      (dynEntry env info p q (first :: second :: rest) r).filePath =
        joinSep r (first :: second :: rest)) ∧
    (st.packagedFiles.Nodup → (findWildcardReplacements (first :: second :: rest)
      (st.packagedFiles.filter (env.mmMatch (first :: second :: rest)))).Nodup) := by
  refine ⟨?_, ?_, ?_⟩
  · unfold addDynamic
    dsimp only
    rw [if_neg (show ¬((st.packagedFiles.filter (env.mmMatch (first :: second :: rest))).isEmpty = true) from by
      rw [hne]; decide)]
    exact foldl_addResolved_dyn_exports env info p q (first :: second :: rest) _ st
  · intro r hr
    obtain ⟨f, hf, hjoin⟩ := findWildcardReplacements_roundtrip hr
    exact ⟨by rw [hjoin]; exact hf, rfl, rfl, rfl, rfl⟩
  · intro hnd
    exact findWildcardReplacements_nodup (List.Nodup.filter _ hnd)

/-- C3 (witness): the wildcard round-trip on a concrete glob. -/
theorem c3_witness :
    ((addDynamic envGlob rootInfo ("./lib/", "") ["./src/", ".js"] st3w).exports =
      st3w.exports ++ (findWildcardReplacements ["./src/", ".js"]
        (st3w.packagedFiles.filter (envGlob.mmMatch ["./src/", ".js"]))).map
          (dynEntry envGlob rootInfo "./lib/" "" ["./src/", ".js"])) ∧
    (∀ r ∈ findWildcardReplacements ["./src/", ".js"]
        (st3w.packagedFiles.filter (envGlob.mmMatch ["./src/", ".js"])),
      joinSep r ["./src/", ".js"] ∈
        st3w.packagedFiles.filter (envGlob.mmMatch ["./src/", ".js"]) ∧
      (dynEntry envGlob rootInfo "./lib/" "" ["./src/", ".js"] r).specifier =
        "./lib/" ++ r ++ "" ∧
      (dynEntry envGlob rootInfo "./lib/" "" ["./src/", ".js"] r).exists_ = true ∧
      (dynEntry envGlob rootInfo "./lib/" "" ["./src/", ".js"] r).globbed = true ∧
      (dynEntry envGlob rootInfo "./lib/" "" ["./src/", ".js"] r).filePath =
        joinSep r ["./src/", ".js"]) ∧
    (st3w.packagedFiles.Nodup → (findWildcardReplacements ["./src/", ".js"]
      (st3w.packagedFiles.filter (envGlob.mmMatch ["./src/", ".js"]))).Nodup) :=
  c3_roundtrip envGlob rootInfo "./lib/" "" "./src/" ".js" [] st3w (by decide)

/-- C4 (counterexample): an entry with conditions `[import, import]` is
removed by a negation with conditions `[import, node]` — the two are not
set-equivalent — and no `exports-negated-missing` is emitted. -/
theorem c4_counterexample :
    ((resolveExports envAllFs (Json.fuel exportsValC4 + 1) rootInfo exportsValC4
        (preambleChecks inpC4 (initialState inpC4))).exports.map
          (fun e => (e.specifier, e.conditions)) =
      [(".", some ["import", "import"])]) ∧
    ((resolveExports envAllFs (Json.fuel exportsValC4 + 1) rootInfo exportsValC4
        (preambleChecks inpC4 (initialState inpC4))).negatedExports.map
          (fun n => (n.specifier, n.conditions)) =
      [(".", some ["import", "node"])]) ∧
    setEquivalentConditions (some ["import", "import"]) (some ["import", "node"]) = false ∧
    (packageExportsState envAllFs inpC4).exports = [] ∧
    countRule (packageExportsState envAllFs inpC4).messages "exports-negated-missing" = 0 := by
  refine ⟨by decide, by decide, by decide, ?_, by decide⟩
  have h9 : (npmIgnoredPass ((jsonLookup inpC4.pkg "files").isSome)
      (exportsOrMainStage envAllFs inpC4 (preambleChecks inpC4 (initialState inpC4)))).exports = [] := by
    decide
  have hrfl : (packageExportsState envAllFs inpC4).exports =
      sortExports ((npmIgnoredPass ((jsonLookup inpC4.pkg "files").isSome)
        (exportsOrMainStage envAllFs inpC4 (preambleChecks inpC4 (initialState inpC4)))).exports) := rfl
  rw [hrfl, h9]
  simp [sortExports]

/-- C4 (amended): each negation removes exactly the entries passing
`negMatches` (prefix/suffix specifier match and `arrayEquivalent`
conditions: equal length plus one-sided membership, which is
set-equivalence only for duplicate-free lists), and emits exactly one
`exports-negated-missing` when nothing matched. -/
theorem c4_amended (st : State) (negated : NegatedExport) :
    (processNegated st negated).exports =
      st.exports.filter (fun e => !negMatches negated e) ∧
    (processNegated st negated).messages =
      (if st.exports.any (negMatches negated) then st.messages
       else st.messages ++ [negatedMissingMsg negated]) ∧
    (∀ l r : List String, l.Nodup → r.Nodup →
      (arrayEquivalent l r = true ↔ ∀ x, x ∈ l ↔ x ∈ r)) := by
  refine ⟨?_, ?_, fun l r hl hr => arrayEquivalent_iff_of_nodup hl hr⟩
  · unfold processNegated
    rw [removeMatching_spec]
    dsimp only
    split <;> rfl
  · unfold processNegated
    rw [removeMatching_spec]
    dsimp only
    by_cases h : st.exports.any (negMatches negated) = true
    · rw [if_pos h, if_pos h]
    · rw [if_neg h, if_neg h]
      rfl

/-- C5 (counterexample): the key `node` below active `node-addons` and
`browser` receives two mutual-exclusivity diagnostics at one path, one per
matching group, so there is not at most one per key. -/
theorem c5_counterexample :
    countMsgsAt (packageExportsState envAllFs inpC5).messages
      "exports-conditions-mutually-exclusive"
      [Seg.key "exports", Seg.key "node-addons", Seg.key "browser", Seg.key "node"] = 2 := by
  decide

/-- C5 (amended): one mutual-exclusivity diagnostic per group that contains
the key and intersects the active conditions, each naming the first
conflicting active condition of its group; none without active
conditions. -/
theorem c5_amended (condition : String) (cs : List String) (path : List Seg) :
    (mutexMessagesFor condition (some cs) path).length =
      (mutuallyExclusiveConditions.filter (fun g =>
        g.conditions.contains condition &&
          cs.any (fun o => g.conditions.contains o))).length ∧
    (∀ m ∈ mutexMessagesFor condition (some cs) path,
      ∃ g ∈ mutuallyExclusiveConditions, g.conditions.contains condition = true ∧
        ∃ other, cs.find? (fun o => g.conditions.contains o) = some other ∧
          m = mutexMsg condition other path) ∧
    mutexMessagesFor condition none path = [] := by
  refine ⟨?_, fun m hm => mutexMessagesFor_some_mem hm,
    mutexMessagesFor_none condition path⟩
  have hlen : (mutexMessagesFor condition (some cs) path).length =
      ((mutuallyExclusiveConditions.map (fun exclusive =>
        if exclusive.conditions.contains condition then
          match firstConflict exclusive.conditions cs with
          | some other => [mutexMsg condition other path]
          | none => []
        else ([] : List Msg))).flatten).length := rfl
  rw [hlen]
  exact mutexMessages_flatten_spec condition cs path mutuallyExclusiveConditions

/-- C6 (confirmed): a conditions object without `default` gets exactly one
`exports-conditions-default-missing` at its path unless both `import` and
`require` are among its keys (the one exhaustive group), in which case it
gets none. -/
theorem c6_default_missing (recur : Recur) (info : Info)
    (fields : List (String × Json)) (st : State)
    (hrec : ∀ info2 v st2, MsgsFrom info2.path st2 (recur info2 v st2))
    (hdef : (fields.map Prod.fst).contains "default" = false) :
    countMsgsAt (resolveExportsConditions recur info fields st).messages
        "exports-conditions-default-missing" info.path =
      countMsgsAt st.messages "exports-conditions-default-missing" info.path +
        (if (fields.map Prod.fst).contains "import" &&
            (fields.map Prod.fst).contains "require" then 0 else 1) := by
  unfold resolveExportsConditions
  rw [conditionsFinale_count_dm info (fields.map Prod.fst) _ hdef,
    countMsgsAt_strict (resolveExportsConditionsItems_msgs hrec fields 0 _)
      "exports-conditions-default-missing",
    conditionsPrelude_count_other info fields st
      "exports-conditions-default-missing" info.path (by decide) (by decide)]

/-- C6 (witness): the default-missing count on a concrete non-exhaustive
conditions object. -/
theorem c6_witness :
    countMsgsAt (resolveExportsConditions (resolveExports envAllFs 1) rootInfo
        fieldsC6 stEmpty).messages
      "exports-conditions-default-missing" rootInfo.path =
      countMsgsAt stEmpty.messages "exports-conditions-default-missing" rootInfo.path +
        (if (fieldsC6.map Prod.fst).contains "import" &&
            (fieldsC6.map Prod.fst).contains "require" then 0 else 1) :=
  c6_default_missing (resolveExports envAllFs 1) rootInfo fieldsC6 stEmpty
    (resolveExports_msgs envAllFs 1) (by decide)

/-- C7 (counterexample): the produced order puts the main entry (path order
`[0]`) before the fallback entries (path order `[]`), although the
spec-modelled shorter-prefix-wins comparator orders it after them, so the
output is not sorted by the claimed comparator. -/
theorem c7_counterexample :
    (packageExportsState envAllFs inpC7).exports = [cxMain, cxA, cxZ] ∧
    cxMain.jsonPathOrder = [0] ∧ cxA.jsonPathOrder = [] ∧
    0 < specCompareExport cxMain cxA := by
  refine ⟨?_, rfl, rfl, by decide⟩
  have h9 : (npmIgnoredPass ((jsonLookup inpC7.pkg "files").isSome)
      (exportsOrMainStage envAllFs inpC7 (preambleChecks inpC7 (initialState inpC7)))).exports
      = [cxMain, cxA, cxZ] := by decide
  have hrfl : (packageExportsState envAllFs inpC7).exports =
      sortExports ((npmIgnoredPass ((jsonLookup inpC7.pkg "files").isSome)
        (exportsOrMainStage envAllFs inpC7 (preambleChecks inpC7 (initialState inpC7)))).exports) := rfl
  rw [hrfl, h9]
  exact List.mergeSort_of_sorted (by decide)

/-- C7 (amended): the final entry sequence is sorted by the source
comparator (`compareExport`, which pads missing path-order positions with
zeros and breaks ties by specifier segment count then alphabetically), and
sorting is idempotent. -/
theorem c7_amended (env : Env) (inp : PkgInput) (l : List RawExport) :
    (packageExportsState env inp).exports.Pairwise
      (fun a b => compareExportLe a b = true) ∧
    sortExports (packageExportsState env inp).exports =
      (packageExportsState env inp).exports ∧
    sortExports (sortExports l) = sortExports l :=
  ⟨sortExports_sorted _, sortExports_idem _, sortExports_idem l⟩

/-- C8 (confirmed): an empty array emits `exports-alternatives-empty` and
adds no entries or negations; a non-empty array emits `exports-alternatives`
exactly once at its path, and the result depends only on the item at index
0 — the remaining items are never consulted. -/
theorem c8_alternatives (recur : Recur) (info : Info) (st : State)
    (item0 : Json) (rest rest2 : List Json)
    (hrec : ∀ info2 v st2, MsgsFrom info2.path st2 (recur info2 v st2)) :
    countMsgsAt (resolveExportsList recur info [] st).messages
        "exports-alternatives-empty" info.path =
      countMsgsAt st.messages "exports-alternatives-empty" info.path + 1 ∧
    (resolveExportsList recur info [] st).exports = st.exports ∧
    (resolveExportsList recur info [] st).negatedExports = st.negatedExports ∧
    countMsgsAt (resolveExportsList recur info (item0 :: rest) st).messages
        "exports-alternatives" info.path =
      countMsgsAt st.messages "exports-alternatives" info.path + 1 ∧
    resolveExportsList recur info (item0 :: rest) st =
      resolveExportsList recur info (item0 :: rest2) st := by
  refine ⟨?_, rfl, rfl, ?_, rfl⟩
  · show countMsgsAt (pushMessage st (alternativesEmptyMsg info.path)).messages
        "exports-alternatives-empty" info.path = _
    rw [countMsgsAt_push, if_pos ⟨rfl, rfl⟩]
  · show countMsgsAt (recur ({ conditions := info.conditions, path := info.path ++ [Seg.idx 0], pathOrder := info.pathOrder ++ [0], specifier := info.specifier } : Info) item0 (pushMessage st (alternativesMsg info.path))).messages "exports-alternatives" info.path = _
    have hh : MsgsFrom (info.path ++ [Seg.idx 0]) (pushMessage st (alternativesMsg info.path)) (recur ({ conditions := info.conditions, path := info.path ++ [Seg.idx 0], pathOrder := info.pathOrder ++ [0], specifier := info.specifier } : Info) item0 (pushMessage st (alternativesMsg info.path))) :=
      hrec _ item0 _
    rw [countMsgsAt_child (by simp) hh "exports-alternatives",
      countMsgsAt_push, if_pos ⟨rfl, rfl⟩]

/-- C8 (witness): the array behaviour on concrete lists. -/
theorem c8_witness :
    countMsgsAt (resolveExportsList (resolveExports envAllFs 1) rootInfo [] stEmpty).messages
        "exports-alternatives-empty" rootInfo.path =
      countMsgsAt stEmpty.messages "exports-alternatives-empty" rootInfo.path + 1 ∧
    (resolveExportsList (resolveExports envAllFs 1) rootInfo [] stEmpty).exports = stEmpty.exports ∧
    (resolveExportsList (resolveExports envAllFs 1) rootInfo [] stEmpty).negatedExports = stEmpty.negatedExports ∧
    countMsgsAt (resolveExportsList (resolveExports envAllFs 1) rootInfo
        [Json.str "./a.js", Json.str "./b.js"] stEmpty).messages
        "exports-alternatives" rootInfo.path =
      countMsgsAt stEmpty.messages "exports-alternatives" rootInfo.path + 1 ∧
    resolveExportsList (resolveExports envAllFs 1) rootInfo
        [Json.str "./a.js", Json.str "./b.js"] stEmpty =
      resolveExportsList (resolveExports envAllFs 1) rootInfo [Json.str "./a.js"] stEmpty :=
  c8_alternatives (resolveExports envAllFs 1) rootInfo stEmpty
    (Json.str "./a.js") [Json.str "./b.js"] [] (resolveExports_msgs envAllFs 1)

/-- C9 (confirmed): with `default` and `types` both string leaves, the
conditions walk emits `exports-types-verbose` at the `types` key exactly
when `typesVerboseHit` accepts the pair, and on a `default` ending in
`.js`, `.cjs` or `.mjs` the test accepts exactly the path with the
extension replaced by `.d.ts`, `.d.cts` or `.d.mts` respectively. -/
theorem c9_types_verbose (recur : Recur) (info : Info)
    (fields : List (String × Json)) (st : State) (d t base : String)
    (hrec : ∀ info2 v st2, MsgsFrom info2.path st2 (recur info2 v st2))
    (hd : jsonLookup fields "default" = some (.str d))
    (ht : jsonLookup fields "types" = some (.str t)) :
    countMsgsAt (resolveExportsConditions recur info fields st).messages
        "exports-types-verbose" (info.path ++ [Seg.key "types"]) =
      countMsgsAt st.messages "exports-types-verbose"
        (info.path ++ [Seg.key "types"]) +
        (if typesVerboseHit d t then 1 else 0) ∧
    typesVerboseHit (base ++ ".js") t = decide (t = base ++ ".d.ts") ∧
    typesVerboseHit (base ++ ".cjs") t = decide (t = base ++ ".d.cts") ∧
    typesVerboseHit (base ++ ".mjs") t = decide (t = base ++ ".d.mts") := by
  refine ⟨?_, typesVerboseHit_js base t, typesVerboseHit_cjs base t,
    typesVerboseHit_mjs base t⟩
  unfold resolveExportsConditions
  rw [conditionsFinale_count_other info (fields.map Prod.fst) _
      "exports-types-verbose" (info.path ++ [Seg.key "types"])
      (by decide) (by decide),
    countMsgsAt_types_strict (resolveExportsConditionsItems_msgs hrec fields 0 _)]
  exact conditionsPrelude_count_tv info fields st hd ht

/-- C9 (witness): the redundancy diagnostic on a concrete conditions
object. -/
theorem c9_witness :
    countMsgsAt (resolveExportsConditions (resolveExports envAllFs 1) rootInfo
        fieldsC9 stEmpty).messages
      "exports-types-verbose" (rootInfo.path ++ [Seg.key "types"]) =
      countMsgsAt stEmpty.messages "exports-types-verbose"
        (rootInfo.path ++ [Seg.key "types"]) +
        (if typesVerboseHit "./dist/a.js" "./dist/a.d.ts" then 1 else 0) ∧
    typesVerboseHit ("./dist/a" ++ ".js") "./dist/a.d.ts" =
      decide ("./dist/a.d.ts" = "./dist/a" ++ ".d.ts") ∧
    typesVerboseHit ("./dist/a" ++ ".cjs") "./dist/a.d.ts" =
      decide ("./dist/a.d.ts" = "./dist/a" ++ ".d.cts") ∧
    typesVerboseHit ("./dist/a" ++ ".mjs") "./dist/a.d.ts" =
      decide ("./dist/a.d.ts" = "./dist/a" ++ ".d.mts") :=
  c9_types_verbose (resolveExports envAllFs 1) rootInfo fieldsC9 stEmpty
    "./dist/a.js" "./dist/a.d.ts" "./dist/a"
    (resolveExports_msgs envAllFs 1) rfl rfl

/-- C10 (confirmed): a specifiers object with the sole key `.`, reached
outside any specifier, emits `exports-specifiers-verbose` at its path and
then resolves the value at `.` normally, with `.` as the specifier. -/
theorem c10_specifiers_verbose (recur : Recur) (info : Info) (v : Json)
    (st : State) (hspec : info.specifier = none) :
    resolveExportsObject recur info [(".", v)] st =
      recur ({ conditions := info.conditions, path := info.path ++ [Seg.key "."], pathOrder := info.pathOrder ++ [0], specifier := some "." } : Info) v
        (pushMessage st (specifiersVerboseMsg info.path)) ∧
    countMsgsAt (pushMessage st (specifiersVerboseMsg info.path)).messages
        "exports-specifiers-verbose" info.path =
      countMsgsAt st.messages "exports-specifiers-verbose" info.path + 1 := by
  obtain ⟨conds, path, pathOrder, spec⟩ := info
  dsimp only at hspec
  subst hspec
  exact ⟨rfl, by rw [countMsgsAt_push, if_pos ⟨rfl, rfl⟩]⟩

/-- C10 (witness): the sole-dot specifiers object on concrete values. -/
theorem c10_witness :
    resolveExportsObject idRecur rootInfo [(".", Json.str "./a.js")] stEmpty =
      idRecur ({ conditions := rootInfo.conditions, path := rootInfo.path ++ [Seg.key "."], pathOrder := rootInfo.pathOrder ++ [0], specifier := some "." } : Info)
        (Json.str "./a.js")
        (pushMessage stEmpty (specifiersVerboseMsg rootInfo.path)) ∧
    countMsgsAt (pushMessage stEmpty (specifiersVerboseMsg rootInfo.path)).messages
        "exports-specifiers-verbose" rootInfo.path =
      countMsgsAt stEmpty.messages "exports-specifiers-verbose" rootInfo.path + 1 :=
  c10_specifiers_verbose idRecur rootInfo (Json.str "./a.js") stEmpty rfl


end PackageExports
